import Mathlib

/-!
# Verification of the json-explorer Tree Navigator core

Shallow embedding of `src/main.rs` (struct `JsonExplorer` and its methods),
together with a model of the JSON pretty-printer and parser used through
`serde_json` (`to_string_pretty` / `from_str`), which is not part of this
repository's sources and is therefore modelled from the specification
(§4.4 Pretty Printer, §4.1 Document Loader, §3 Data Model: objects are
insertion-ordered key/value maps; numbers are modelled by integers, the
floating-point fragment being outside the shallow embedding).
-/

/-- `serde_json::Value`: tagged union over null, bool, number, string,
array, object (insertion-ordered association list of string keys).
Numbers are modelled as integers. -/
inductive JsonValue where
  | null : JsonValue
  | bool (b : Bool) : JsonValue
  | num (n : Int) : JsonValue
  | str (s : String) : JsonValue
  | arr (xs : List JsonValue) : JsonValue
  | obj (kvs : List (String × JsonValue)) : JsonValue

/-- Key lookup in an object's association list, modelling `obj.get(&key)`. -/
def lookupKey : List (String × JsonValue) → String → Option JsonValue
  | [], _ => none
  | (k, v) :: rest, key => if k = key then some v else lookupKey rest key

/-- Rust `key.parse::<usize>()` (on a 64-bit platform): an optional leading
`'+'`, then one or more ASCII digits, with overflow above `usize::MAX`. -/
def parseUsize (s : String) : Option Nat :=
  let digits := match s.data with
    | '+' :: rest => rest
    | l => l
  if digits.isEmpty then none
  else if digits.all Char.isDigit then
    let n := digits.foldl (fun a c => a * 10 + (c.toNat - 48)) 0
    if n < 2 ^ 64 then some n else none
  else none

/-- One iteration of the loop body of `navigate_to_path`: descend into a
matching object key, or an in-bounds parsed array index; `none` models
the `break` cases. -/
def step (cur : JsonValue) (key : String) : Option JsonValue :=
  match cur with
  | .obj kvs => lookupKey kvs key
  | .arr xs =>
    match parseUsize key with
    | some i => xs.get? i
    | none => none
  | _ => none

/-- The resolution loop of `navigate_to_path` (lines 47–74): walk the
requested segments from `cur`, accumulating the valid prefix, and stop at
the first invalid segment, returning the prefix together with the value
reached. -/
def navLoop : JsonValue → List String → List String × JsonValue
  | cur, [] => ([], cur)
  | cur, key :: rest =>
    match step cur key with
    | some v =>
      let r := navLoop v rest
      (key :: r.1, r.2)
    | none => ([], cur)

/-- Strict path resolution: `some` exactly when every segment is valid.
Used to state the spec's `Resolve`/validity notions. -/
def resolve : JsonValue → List String → Option JsonValue
  | cur, [] => some cur
  | cur, key :: rest =>
    match step cur key with
    | some v => resolve v rest
    | none => none

/-- Decimal digit character for a value below ten. -/
def digitChar : Nat → Char
  | 0 => '0'
  | 1 => '1'
  | 2 => '2'
  | 3 => '3'
  | 4 => '4'
  | 5 => '5'
  | 6 => '6'
  | 7 => '7'
  | 8 => '8'
  | 9 => '9'
  | _ => '*'

/-- Decimal rendering of a natural number, most significant digit first,
with a fuel bound on the number of digits. -/
def printNatAux : Nat → Nat → List Char
  | 0, _ => []
  | fuel + 1, n =>
    if n < 10 then [digitChar n] else printNatAux fuel (n / 10) ++ [digitChar (n % 10)]

/-- Decimal rendering of a natural number, most significant digit first. -/
def printNat (n : Nat) : List Char := printNatAux (n + 1) n

/-- Decimal rendering of an integer (Rust `i64`/`u64` `Display`). -/
def printInt (i : Int) : List Char :=
  if i < 0 then '-' :: printNat i.natAbs else printNat i.natAbs

/-- Lowercase hexadecimal digit character for a value below sixteen. -/
def hexDigit (n : Nat) : Char :=
  if n < 10 then digitChar n
  else if n = 10 then 'a'
  else if n = 11 then 'b'
  else if n = 12 then 'c'
  else if n = 13 then 'd'
  else if n = 14 then 'e'
  else if n = 15 then 'f'
  else '*'

/-- Modelled from the spec: serde_json's JSON string escaping, one source
character at a time. Quote and backslash get two-character escapes, the
five named control characters their short escapes, every other control
character below `0x20` a `\u00xx` escape; all other characters are
emitted as themselves. -/
def escapeChar (c : Char) : List Char :=
  if c = '"' then ['\\', '"']
  else if c = '\\' then ['\\', '\\']
  else if c = '\x08' then ['\\', 'b']
  else if c = '\x09' then ['\\', 't']
  else if c = '\x0a' then ['\\', 'n']
  else if c = '\x0c' then ['\\', 'f']
  else if c = '\x0d' then ['\\', 'r']
  else if c.toNat < 0x20 then
    ['\\', 'u', '0', '0', hexDigit (c.toNat / 16), hexDigit (c.toNat % 16)]
  else [c]

/-- Escape every character of a string body. -/
def escList (l : List Char) : List Char := (l.map escapeChar).flatten

/-- A JSON string literal: quote, escaped body, quote. -/
def quoteString (s : String) : List Char := '"' :: (escList s.data ++ ['"'])

/-- Pretty-printer indentation: two spaces per nesting level. -/
def indentChars (k : Nat) : List Char := List.replicate (2 * k) ' '

mutual

/-- Modelled from the spec (§4.4): serde_json pretty printing at nesting
level `k` — nested two-space indentation, one element or key/value pair
per line, preserved order, `[]`/`{}` for empty containers. -/
def prettyAux : Nat → JsonValue → List Char
  | _, .null => ['n', 'u', 'l', 'l']
  | _, .bool true => ['t', 'r', 'u', 'e']
  | _, .bool false => ['f', 'a', 'l', 's', 'e']
  | _, .num i => printInt i
  | _, .str s => quoteString s
  | _, .arr [] => ['[', ']']
  | k, .arr (x :: xs) =>
    '[' :: '\n' :: (prettyItems (k + 1) (x :: xs) ++ '\n' :: (indentChars k ++ [']']))
  | _, .obj [] => ['\x7b', '\x7d']
  | k, .obj (e :: kvs) =>
    '\x7b' :: '\n' :: (prettyEntries (k + 1) (e :: kvs) ++ '\n' :: (indentChars k ++ ['\x7d']))

/-- The lines of an array's elements, comma-and-newline separated. -/
def prettyItems : Nat → List JsonValue → List Char
  | _, [] => []
  | k, [x] => indentChars k ++ prettyAux k x
  | k, x :: y :: ys =>
    indentChars k ++ prettyAux k x ++ ',' :: '\n' :: prettyItems k (y :: ys)

/-- The lines of an object's entries, comma-and-newline separated. -/
def prettyEntries : Nat → List (String × JsonValue) → List Char
  | _, [] => []
  | k, [(key, v)] => indentChars k ++ (quoteString key ++ ':' :: ' ' :: prettyAux k v)
  | k, (key, v) :: e :: rest =>
    indentChars k ++ (quoteString key ++ ':' :: ' ' :: prettyAux k v)
      ++ ',' :: '\n' :: prettyEntries k (e :: rest)

end

/-- `serde_json::to_string_pretty` on the in-memory value model. -/
def to_string_pretty (v : JsonValue) : String := String.mk (prettyAux 0 v)

/-- The application state, struct `JsonExplorer` (lines 6–19).
`expanded_nodes: HashMap<String, bool>` is modelled as an association
list; `current_file_path` as an optional path string. -/
structure JsonExplorer where
  root_data : Option JsonValue
  current_data : Option JsonValue
  navigation_path : List String
  current_file_path : Option String
  selected_json : String
  expanded_nodes : List (String × Bool)
  show_node_types : Bool
  show_node_values : Bool

/-- Insert a key/value pair into an insertion-ordered object map: an
existing key keeps its position and gets the new value, a new key is
appended (the spec's insertion-order-preserving object mapping). -/
def insertKV : List (String × JsonValue) → String → JsonValue → List (String × JsonValue)
  | [], k, v => [(k, v)]
  | (k1, v1) :: rest, k, v =>
    if k1 = k then (k1, v) :: rest else (k1, v1) :: insertKV rest k v

/-- JSON insignificant whitespace. -/
def isWs (c : Char) : Bool := c = ' ' || c = '\t' || c = '\n' || c = '\x0d'

/-- Drop leading insignificant whitespace. -/
def skipWs : List Char → List Char
  | [] => []
  | c :: cs => if isWs c then skipWs cs else c :: cs

/-- The numeric value of a hexadecimal digit character, if it is one. -/
def hexVal (c : Char) : Option Nat :=
  if '0' ≤ c ∧ c ≤ '9' then some (c.toNat - 48)
  else if 'a' ≤ c ∧ c ≤ 'f' then some (c.toNat - 87)
  else if 'A' ≤ c ∧ c ≤ 'F' then some (c.toNat - 55)
  else none

/-- The value of a four-hex-digit escape body. -/
def hex4 (a b c d : Char) : Option Nat :=
  match hexVal a, hexVal b, hexVal c, hexVal d with
  | some x, some y, some z, some w => some (4096 * x + 256 * y + 16 * z + w)
  | _, _, _, _ => none

/-- Prepend a decoded character to a string-body parse result. -/
def consRes (c : Char) : Option (List Char × List Char) → Option (List Char × List Char)
  | some (cs, rest) => some (c :: cs, rest)
  | none => none

mutual

/-- Modelled from the spec: JSON string-body parsing (after the opening
quote), decoding escapes, rejecting unescaped control characters, and
stopping at the closing quote. -/
def parseStringBody : List Char → Option (List Char × List Char)
  | [] => none
  | c :: cs =>
    if c = '"' then some ([], cs)
    else if c = '\\' then parseEscape cs
    else if c.toNat < 0x20 then none
    else consRes c (parseStringBody cs)

/-- The standard single-character escapes and the `\uXXXX` form. -/
def parseEscape : List Char → Option (List Char × List Char)
  | [] => none
  | e :: cs =>
    if e = 'b' then consRes '\x08' (parseStringBody cs)
    else if e = 'f' then consRes '\x0c' (parseStringBody cs)
    else if e = 'n' then consRes '\n' (parseStringBody cs)
    else if e = 'r' then consRes '\x0d' (parseStringBody cs)
    else if e = 't' then consRes '\t' (parseStringBody cs)
    else if e = '"' then consRes '"' (parseStringBody cs)
    else if e = '\\' then consRes '\\' (parseStringBody cs)
    else if e = '/' then consRes '/' (parseStringBody cs)
    else if e = 'u' then parseUnicode cs
    else none

/-- A `\uXXXX` escape body: a lone code unit outside the surrogate range,
or a leading surrogate expecting a trailing one. -/
def parseUnicode : List Char → Option (List Char × List Char)
  | h1 :: h2 :: h3 :: h4 :: cs =>
    match hex4 h1 h2 h3 h4 with
    | none => none
    | some n =>
      if n < 0xd800 ∨ 0xe000 ≤ n then consRes (Char.ofNat n) (parseStringBody cs)
      else if n < 0xdc00 then parseLowSurrogate n cs
      else none
  | _ => none

/-- The trailing surrogate of a `\uXXXX\uXXXX` pair. -/
def parseLowSurrogate : Nat → List Char → Option (List Char × List Char)
  | n, '\\' :: 'u' :: g1 :: g2 :: g3 :: g4 :: cs =>
    match hex4 g1 g2 g3 g4 with
    | none => none
    | some m =>
      if 0xdc00 ≤ m ∧ m < 0xe000 then
        consRes (Char.ofNat (0x10000 + (n - 0xd800) * 0x400 + (m - 0xdc00)))
          (parseStringBody cs)
      else none
  | _, _ => none

end

/-- Greedily consume decimal digits, extending an accumulated value. -/
def consumeDigits (acc : Nat) : List Char → Nat × List Char
  | [] => (acc, [])
  | c :: cs =>
    if c.isDigit then consumeDigits (acc * 10 + (c.toNat - 48)) cs else (acc, c :: cs)

/-- The integer part of a JSON number: a lone `0`, or a nonzero leading
digit followed by any digits (leading zeros are a syntax error). -/
def parseIntPart : List Char → Option (Nat × List Char)
  | [] => none
  | c :: cs =>
    if c = '0' then some (0, cs)
    else if c.isDigit then some (consumeDigits (c.toNat - 48) cs)
    else none

/-- Reject a fraction or exponent continuation: the model covers the
integer fragment of JSON numbers (floating point is out of scope). -/
def checkIntEnd : JsonValue → List Char → Option (JsonValue × List Char)
  | v, [] => some (v, [])
  | v, c :: cs =>
    if c = '.' ∨ c = 'e' ∨ c = 'E' then none else some (v, c :: cs)

/-- Modelled from the spec: parsing a JSON number (integer fragment). -/
def parseNumber : List Char → Option (JsonValue × List Char)
  | [] => none
  | c :: cs =>
    if c = '-' then
      match parseIntPart cs with
      | some (n, rest) => checkIntEnd (.num (-(n : Int))) rest
      | none => none
    else
      match parseIntPart (c :: cs) with
      | some (n, rest) => checkIntEnd (.num (n : Int)) rest
      | none => none

/-- Match an expected keyword tail, returning the given value. -/
def expectTail (v : JsonValue) : List Char → List Char → Option (JsonValue × List Char)
  | [], rest => some (v, rest)
  | _ :: _, [] => none
  | k :: ks, c :: cs => if c = k then expectTail v ks cs else none

mutual

/-- Modelled from the spec: recursive-descent JSON value parsing
(`serde_json::from_str`), with a fuel bound on nesting. -/
def parseValueF : Nat → List Char → Option (JsonValue × List Char)
  | 0, _ => none
  | fuel + 1, input =>
    match skipWs input with
    | [] => none
    | c :: cs =>
      if c = 'n' then expectTail .null ['u', 'l', 'l'] cs
      else if c = 't' then expectTail (.bool true) ['r', 'u', 'e'] cs
      else if c = 'f' then expectTail (.bool false) ['a', 'l', 's', 'e'] cs
      else if c = '"' then
        match parseStringBody cs with
        | some (body, rest) => some (.str (String.mk body), rest)
        | none => none
      else if c = '[' then parseArrayF fuel cs
      else if c = '\x7b' then parseObjectF fuel cs
      else parseNumber (c :: cs)

/-- After `[`: an empty array, or a first element then the tail loop. -/
def parseArrayF : Nat → List Char → Option (JsonValue × List Char)
  | 0, _ => none
  | fuel + 1, input =>
    match skipWs input with
    | [] => none
    | c :: cs =>
      if c = ']' then some (.arr [], cs)
      else
        match parseValueF fuel (c :: cs) with
        | some (v, rest) => parseArrayTailF fuel [v] rest
        | none => none

/-- After an array element: `,` and a further element, or `]`. -/
def parseArrayTailF : Nat → List JsonValue → List Char → Option (JsonValue × List Char)
  | 0, _, _ => none
  | fuel + 1, acc, input =>
    match skipWs input with
    | [] => none
    | c :: cs =>
      if c = ',' then
        match parseValueF fuel cs with
        | some (v, rest) => parseArrayTailF fuel (acc ++ [v]) rest
        | none => none
      else if c = ']' then some (.arr acc, cs)
      else none

/-- After `{`: an empty object, or a first `"key": value` entry then the
tail loop. -/
def parseObjectF : Nat → List Char → Option (JsonValue × List Char)
  | 0, _ => none
  | fuel + 1, input =>
    match skipWs input with
    | [] => none
    | c :: cs =>
      if c = '\x7d' then some (.obj [], cs)
      else if c = '"' then
        match parseStringBody cs with
        | some (key, rest) =>
          match skipWs rest with
          | ':' :: rest2 =>
            match parseValueF fuel rest2 with
            | some (v, rest3) => parseObjectTailF fuel (insertKV [] (String.mk key) v) rest3
            | none => none
          | _ => none
        | none => none
      else none

/-- After an object entry: `,` and a further entry, or `}`. -/
def parseObjectTailF : Nat → List (String × JsonValue) → List Char → Option (JsonValue × List Char)
  | 0, _, _ => none
  | fuel + 1, acc, input =>
    match skipWs input with
    | [] => none
    | c :: cs =>
      if c = ',' then
        match skipWs cs with
        | '"' :: cs2 =>
          match parseStringBody cs2 with
          | some (key, rest) =>
            match skipWs rest with
            | ':' :: rest2 =>
              match parseValueF fuel rest2 with
              | some (v, rest3) => parseObjectTailF fuel (insertKV acc (String.mk key) v) rest3
              | none => none
            | _ => none
          | none => none
        | _ => none
      else if c = '\x7d' then some (.obj acc, cs)
      else none

end

/-- Modelled from the spec: `serde_json::from_str::<Value>` — parse one
JSON document and require only trailing whitespace after it. -/
def parseJson (s : String) : Option JsonValue :=
  match parseValueF (s.length + 1) s.data with
  | some (v, rest) => if skipWs rest = [] then some v else none
  | none => none

/-- `update_selected_json` (lines 89–94): regenerate the raw-text pane from
`current_data` when present (serialization of an in-memory value cannot
fail, so the `unwrap_or_else` fallback string is unreachable). -/
def update_selected_json (s : JsonExplorer) : JsonExplorer :=
  match s.current_data with
  | some d => { s with selected_json := to_string_pretty d }
  | none => s

/-- `navigate_to_path` (lines 45–80): when a document is loaded, resolve
the longest valid prefix of the requested path from the root, store it as
the navigation path, store the reached value as the current subtree and
regenerate the text pane; without a document it does nothing. -/
def navigate_to_path (s : JsonExplorer) (path : List String) : JsonExplorer :=
  match s.root_data with
  | some root =>
    let r := navLoop root path
    update_selected_json { s with navigation_path := r.1, current_data := some r.2 }
  | none => s

/-- `go_back` (lines 82–87): with a non-empty navigation path, pop its last
segment and re-navigate to the popped path; otherwise do nothing. -/
def go_back (s : JsonExplorer) : JsonExplorer :=
  if s.navigation_path = [] then s
  else
    let s2 := { s with navigation_path := s.navigation_path.dropLast }
    navigate_to_path s2 s2.navigation_path

/-- `load_file` (lines 31–43): the file-read outcome is passed in as an
`Except` (I/O is external); its content is parsed, and only on success is
the state replaced wholesale — root and current data, file path, cleared
navigation path and expansion state, regenerated text pane. The `?`
operator's early returns leave the state untouched. -/
def load_file (s : JsonExplorer) (path : String) (readResult : Except String String) :
    JsonExplorer × Except String Unit :=
  match readResult with
  | .error e => (s, .error e)
  | .ok content =>
    match parseJson content with
    | none => (s, .error "invalid JSON")
    | some data =>
      (update_selected_json
        { s with
          root_data := some data
          current_data := some data
          current_file_path := some path
          navigation_path := []
          expanded_nodes := [] }, .ok ())

/-- The `View` menu checkboxes (line 261): flip `show_node_types`. -/
def toggle_show_types (s : JsonExplorer) : JsonExplorer :=
  { s with show_node_types := !s.show_node_types }

/-- The `View` menu checkboxes (line 262): flip `show_node_values`. -/
def toggle_show_values (s : JsonExplorer) : JsonExplorer :=
  { s with show_node_values := !s.show_node_values }

/-- The scalar arm's kind tag and value projection (lines 199–205):
strings double-quoted verbatim, numbers/bools/null as their literal text,
with the unreachable container fallback `("unknown", "?")`. -/
def scalarProj : JsonValue → String × String
  | .str s => ("string", "\"" ++ s ++ "\"")
  | .num n => ("number", String.mk (printInt n))
  | .bool b => ("boolean", if b then "true" else "false")
  | .null => ("null", "null")
  | _ => ("unknown", "?")

/-- Rust byte slicing `&s[..n]` on a UTF-8 string, as the characters whose
bytes lie below `n`; `none` models the panic when `n` is out of range or
not a character boundary. -/
def takeBytes : Nat → List Char → Option (List Char)
  | 0, _ => some []
  | _ + 1, [] => none
  | n, c :: cs =>
    if c.utf8Size ≤ n then
      match takeBytes (n - c.utf8Size) cs with
      | some taken => some (c :: taken)
      | none => none
    else none

/-- The truncation of the scalar value projection (lines 207–211): values
longer than 50 bytes are cut at byte 50 — a panic (`none`) when that is
not a character boundary — and suffixed with an ellipsis marker. -/
def displayValue (value_str : String) : Option String :=
  if value_str.utf8ByteSize > 50 then
    match takeBytes 50 value_str.data with
    | some taken => some (String.mk taken ++ "...")
    | none => none
  else some value_str

/-- The scalar line's label (lines 213–224): four formats from the two
display options. -/
def scalarDisplayText (st sv : Bool) (key type_str display_value : String) : String :=
  let display_key := if key = "" then "Root" else key
  if st && sv then "  " ++ display_key ++ " (" ++ type_str ++ ") " ++ display_value
  else if st && !sv then "  " ++ display_key ++ " (" ++ type_str ++ ")"
  else if !st && sv then "  " ++ display_key ++ " " ++ display_value
  else "  " ++ display_key

/-- A container header's label (lines 111–124 and 156–169): expansion
glyph, key or `Root`, and optionally the kind and item count. -/
def containerText (st isExp : Bool) (kind key : String) (count : Nat) : String :=
  let icon := if isExp then "▼" else "▶"
  if key = "" then
    if st then icon ++ " Root (" ++ kind ++ ", " ++ toString count ++ " items)"
    else icon ++ " Root"
  else
    if st then icon ++ " " ++ key ++ " (" ++ kind ++ ", " ++ toString count ++ " items)"
    else icon ++ " " ++ key

/-- The synthesized node identifier (line 105). -/
def nodeId (path : List String) (key : String) : String :=
  String.intercalate "_" path ++ "_" ++ key

/-- Expansion lookup: `HashMap::get` with collapsed default (lines 109, 154). -/
def expLookup : List (String × Bool) → String → Bool
  | [], _ => false
  | (k, b) :: rest, key => if k = key then b else expLookup rest key

/-- The child path extension: the current key is pushed unless empty
(lines 133–136, 143–147, 188–192). -/
def childPath (path : List String) (key : String) : List String :=
  if key = "" then path else path ++ [key]

mutual

/-- One render pass of `render_json_tree` (lines 104–234) without clicks:
the ordered list of `(node identifier, label text)` rows it produces,
descending into expanded containers; `none` models a panic raised while
rendering a scalar's truncated value. -/
def renderTree (st sv : Bool) (exp : List (String × Bool)) :
    JsonValue → String → List String → Option (List (String × String))
  | .obj kvs, key, path =>
    let nid := nodeId path key
    let isExp := expLookup exp nid
    let text := containerText st isExp "object" key kvs.length
    if isExp then
      match renderEntries st sv exp kvs (childPath path key) with
      | some rows => some ((nid, text) :: rows)
      | none => none
    else some [(nid, text)]
  | .arr xs, key, path =>
    let nid := nodeId path key
    let isExp := expLookup exp nid
    let text := containerText st isExp "array" key xs.length
    if isExp then
      match renderItems st sv exp xs 0 (childPath path key) with
      | some rows => some ((nid, text) :: rows)
      | none => none
    else some [(nid, text)]
  | v, key, path =>
    let p := scalarProj v
    match displayValue p.2 with
    | some dv => some [(nodeId path key, scalarDisplayText st sv key p.1 dv)]
    | none => none

/-- Children of an expanded object, each key/value pair in order. -/
def renderEntries (st sv : Bool) (exp : List (String × Bool)) :
    List (String × JsonValue) → List String → Option (List (String × String))
  | [], _ => some []
  | (k, v) :: rest, path =>
    match renderTree st sv exp v k path with
    | some rows =>
      match renderEntries st sv exp rest path with
      | some more => some (rows ++ more)
      | none => none
    | none => none

/-- Children of an expanded array, each element labeled by its bracketed
index (line 193). -/
def renderItems (st sv : Bool) (exp : List (String × Bool)) :
    List JsonValue → Nat → List String → Option (List (String × String))
  | [], _, _ => some []
  | x :: xs, i, path =>
    match renderTree st sv exp x ("[" ++ toString i ++ "]") path with
    | some rows =>
      match renderItems st sv exp xs (i + 1) path with
      | some more => some (rows ++ more)
      | none => none
    | none => none

end

/-- Does the association list hold the key? -/
def hasKey (l : List (String × JsonValue)) (k : String) : Bool :=
  (lookupKey l k).isSome

mutual

/-- The representation invariant of in-memory `serde_json::Value`s: every
object's keys are pairwise distinct (a map cannot hold duplicates). -/
def wfJson : JsonValue → Bool
  | .null => true
  | .bool _ => true
  | .num _ => true
  | .str _ => true
  | .arr xs => wfList xs
  | .obj kvs => wfEntries kvs

/-- All array elements well-formed. -/
def wfList : List JsonValue → Bool
  | [] => true
  | x :: xs => wfJson x && wfList xs

/-- Keys pairwise distinct and all values well-formed. -/
def wfEntries : List (String × JsonValue) → Bool
  | [] => true
  | (k, v) :: rest => !hasKey rest k && wfJson v && wfEntries rest

end

mutual

/-- A sufficient fuel bound for parsing the printed form of a value. -/
def fuelNeed : JsonValue → Nat
  | .null => 1
  | .bool _ => 1
  | .num _ => 1
  | .str _ => 1
  | .arr xs => 1 + fuelNeedItems xs
  | .obj kvs => 1 + fuelNeedEntries kvs

/-- Fuel for the remaining elements of an array. -/
def fuelNeedItems : List JsonValue → Nat
  | [] => 1
  | x :: xs => 1 + max (fuelNeed x) (fuelNeedItems xs)

/-- Fuel for the remaining entries of an object. -/
def fuelNeedEntries : List (String × JsonValue) → Nat
  | [] => 1
  | (_, v) :: rest => 1 + max (fuelNeed v) (fuelNeedEntries rest)

end

/-- The worked example document `{"a": [1, 2, {"b": "x"}]}` (§8). -/
def sampleRoot : JsonValue :=
  .obj [("a", .arr [.num 1, .num 2, .obj [("b", .str "x")]])]

/-- A state with the worked example loaded. -/
def sampleState : JsonExplorer :=
  { root_data := some sampleRoot
    current_data := some sampleRoot
    navigation_path := []
    current_file_path := some "sample.json"
    selected_json := to_string_pretty sampleRoot
    expanded_nodes := []
    show_node_types := false
    show_node_values := false }

/-- No leading digit: number parsing stops cleanly before this input. -/
def noDigitHead : List Char → Prop
  | [] => True
  | c :: _ => c.isDigit = false

/-- Input that may safely follow a printed number: its head (if any)
neither extends the digit run nor starts a fraction or exponent. -/
def numSafe : List Char → Prop
  | [] => True
  | c :: _ => c.isDigit = false ∧ c ≠ '.' ∧ c ≠ 'e' ∧ c ≠ 'E'

/-- The head of a printed value: present, not whitespace, and none of the
container-closing or separating punctuation. -/
def startsValue : List Char → Prop
  | [] => False
  | c :: _ => isWs c = false ∧ c ≠ ']' ∧ c ≠ '\x7d' ∧ c ≠ ','

/-- The printed continuation after one array element: either the closing
text, or a comma, newline, indentation and the next element. -/
def itemsTail (k : Nat) (closing : List Char) : List JsonValue → List Char
  | [] => closing
  | y :: ys => ',' :: '\n' :: (indentChars k ++ (prettyAux k y ++ itemsTail k closing ys))

/-- The printed continuation after one object entry. -/
def entriesTail (k : Nat) (closing : List Char) : List (String × JsonValue) → List Char
  | [] => closing
  | (key, v) :: es =>
    ',' :: '\n' ::
      (indentChars k ++ (quoteString key ++ ':' :: ' ' :: prettyAux k v ++ entriesTail k closing es))

/-- The derived-state invariant of the spec (§3): whenever a document is
loaded, every prefix of the navigation path resolves from the root, and
the current subtree is exactly the resolution of the navigation path. -/
def stateInvariant (s : JsonExplorer) : Prop :=
  ∀ root, s.root_data = some root →
    s.current_data = resolve root s.navigation_path ∧
    ∀ p t, p ++ t = s.navigation_path → (resolve root p).isSome = true

/-- Induction over `JsonValue` with membership hypotheses for the nested
container lists. -/
def jsonInd (P : JsonValue → Prop)
    (h0 : P .null) (h1 : ∀ b, P (.bool b)) (h2 : ∀ n, P (.num n)) (h3 : ∀ s, P (.str s))
    (h4 : ∀ xs, (∀ x ∈ xs, P x) → P (.arr xs))
    (h5 : ∀ kvs, (∀ kv ∈ kvs, P kv.2) → P (.obj kvs)) : ∀ v, P v
  | .null => h0
  | .bool b => h1 b
  | .num n => h2 n
  | .str s => h3 s
  | .arr xs => h4 xs (fun x hx => jsonInd P h0 h1 h2 h3 h4 h5 x)
  | .obj kvs => h5 kvs (fun kv hkv => jsonInd P h0 h1 h2 h3 h4 h5 kv.2)
termination_by v => sizeOf v
decreasing_by
  · exact Nat.lt_trans (List.sizeOf_lt_of_mem hx) (by simp_arith)
  · have hlt := List.sizeOf_lt_of_mem hkv
    have hp : sizeOf kv.2 < sizeOf kv := by
      obtain ⟨a, b⟩ := kv
      simp_arith
    simp_arith
    omega

/-- A document exercising every shape: escapes and non-ASCII in strings,
empty and nested containers, negative and zero numbers, bools, null. -/
def sampleDoc : JsonValue :=
  .obj [("s", .str "a\"b\\c\x01 é🙂"), ("empty", .arr []), ("eobj", .obj []),
        ("n", .num (-42)), ("z", .num 0), ("b", .bool true), ("f2", .bool false),
        ("nil", .null),
        ("deep", .arr [.num 17, .arr [.str ""], .obj [("k", .num 123)]])]

theorem navLoop_sound : ∀ (path : List String) (cur : JsonValue),
    (∃ t, (navLoop cur path).1 ++ t = path) ∧
    resolve cur (navLoop cur path).1 = some (navLoop cur path).2 ∧
    ∀ key rest, path = (navLoop cur path).1 ++ key :: rest →
      step (navLoop cur path).2 key = none := by
  intro path
  induction path with
  | nil =>
    intro cur
    refine ⟨⟨[], rfl⟩, rfl, ?_⟩
    intro key rest h
    simp [navLoop] at h
  | cons k0 rest0 ih =>
    intro cur
    cases h : step cur k0 with
    | some v =>
      have hnav : navLoop cur (k0 :: rest0) =
          (k0 :: (navLoop v rest0).1, (navLoop v rest0).2) := by
        simp [navLoop, h]
      rw [hnav]
      obtain ⟨⟨t, ht⟩, hres, hext⟩ := ih v
      refine ⟨⟨t, by simp [ht]⟩, ?_, ?_⟩
      · simpa [resolve, h] using hres
      · intro key rest hh
        simp only [List.cons_append, List.cons.injEq] at hh
        exact hext key rest hh.2
    | none =>
      have hnav : navLoop cur (k0 :: rest0) = ([], cur) := by simp [navLoop, h]
      rw [hnav]
      refine ⟨⟨k0 :: rest0, rfl⟩, rfl, ?_⟩
      intro key rest hh
      simp only [List.nil_append, List.cons.injEq] at hh
      rw [← hh.1]
      exact h

theorem navLoop_of_resolve : ∀ (path : List String) (cur v : JsonValue),
    resolve cur path = some v → navLoop cur path = (path, v) := by
  intro path
  induction path with
  | nil =>
    intro cur v h
    simp [resolve] at h
    simp [navLoop, h]
  | cons k rest ih =>
    intro cur v h
    cases hs : step cur k with
    | some m =>
      rw [resolve, hs] at h
      simp [navLoop, hs, ih m v h]
    | none =>
      rw [resolve, hs] at h
      exact absurd h (by simp)

theorem resolve_append : ∀ (p : List String) (q : List String) (cur : JsonValue),
    resolve cur (p ++ q) = (resolve cur p).bind fun m => resolve m q := by
  intro p
  induction p with
  | nil => intro q cur; simp [resolve]
  | cons k rest ih =>
    intro q cur
    cases hs : step cur k with
    | some m => simp [resolve, hs, ih]
    | none => simp [resolve, hs]

theorem navLoop_append_of_resolve :
    ∀ (p : List String) (cur m : JsonValue) (q : List String),
    resolve cur p = some m →
    navLoop cur (p ++ q) = (p ++ (navLoop m q).1, (navLoop m q).2) := by
  intro p
  induction p with
  | nil =>
    intro cur m q h
    simp [resolve] at h
    simp [h]
  | cons k rest ih =>
    intro cur m q h
    cases hs : step cur k with
    | some v =>
      rw [resolve, hs] at h
      simp [navLoop, hs, ih v m q h]
    | none =>
      rw [resolve, hs] at h
      exact absurd h (by simp)

theorem navigate_fields (s : JsonExplorer) (root : JsonValue) (path : List String)
    (h : s.root_data = some root) :
    navigate_to_path s path =
      { s with
        navigation_path := (navLoop root path).1
        current_data := some (navLoop root path).2
        selected_json := to_string_pretty (navLoop root path).2 } := by
  simp [navigate_to_path, h, update_selected_json]

theorem navigate_none (s : JsonExplorer) (h : s.root_data = none) (path : List String) :
    navigate_to_path s path = s := by
  simp [navigate_to_path, h]

/-- **C1**: `navigate_to_path` resolves the longest valid prefix: the
stored navigation path is a prefix of the request, its strict resolution
reaches the stored current subtree, re-resolving the prefix is idempotent,
the next requested segment past the prefix is invalid at the reached
value, and on the worked example `{"a": [1, 2, {"b": "x"}]}` the request
`["a", "2", "b"]` reaches `"x"` while `["a", "9"]` truncates to `["a"]`
with the three-element array as current subtree. -/
theorem navigate_prefix_law (s : JsonExplorer) (root : JsonValue)
    (path : List String) (h : s.root_data = some root) :
    ((navigate_to_path s path).navigation_path = (navLoop root path).1 ∧
     (navigate_to_path s path).current_data = some (navLoop root path).2) ∧
    (∃ t, (navLoop root path).1 ++ t = path) ∧
    resolve root (navLoop root path).1 = some (navLoop root path).2 ∧
    navLoop root (navLoop root path).1 = ((navLoop root path).1, (navLoop root path).2) ∧
    (∀ key rest, path = (navLoop root path).1 ++ key :: rest →
      step (navLoop root path).2 key = none) ∧
    (navigate_to_path sampleState ["a", "2", "b"]).current_data = some (.str "x") ∧
    (navigate_to_path sampleState ["a", "9"]).navigation_path = ["a"] ∧
    (navigate_to_path sampleState ["a", "9"]).current_data =
      some (.arr [.num 1, .num 2, .obj [("b", .str "x")]]) := by
  obtain ⟨hpre, hres, hext⟩ := navLoop_sound path root
  refine ⟨⟨?_, ?_⟩, hpre, hres, navLoop_of_resolve _ root _ hres, hext, rfl, rfl, rfl⟩
  · rw [navigate_fields s root path h]
  · rw [navigate_fields s root path h]

theorem navigate_prefix_law_witness :
    sampleState.root_data = some sampleRoot ∧
    (navigate_to_path sampleState ["a", "9"]).navigation_path =
      (navLoop sampleRoot ["a", "9"]).1 :=
  ⟨rfl, (navigate_prefix_law sampleState sampleRoot ["a", "9"] rfl).1.1⟩

/-- **C6**: navigation is idempotent — repeating `navigate_to_path` with
the same requested path leaves the current subtree and the raw-text pane
exactly as after the first call. -/
theorem navigate_idempotent (s : JsonExplorer) (path : List String) :
    (navigate_to_path (navigate_to_path s path) path).current_data =
      (navigate_to_path s path).current_data ∧
    (navigate_to_path (navigate_to_path s path) path).selected_json =
      (navigate_to_path s path).selected_json := by
  cases h : s.root_data with
  | none =>
    rw [navigate_none s h path, navigate_none s h path]
    exact ⟨rfl, rfl⟩
  | some root =>
    have h1 := navigate_fields s root path h
    have hroot2 : (navigate_to_path s path).root_data = some root := by rw [h1]; exact h
    have h2 := navigate_fields (navigate_to_path s path) root path hroot2
    rw [h2, h1]
    exact ⟨rfl, rfl⟩

/-- **C7**: `go_back` is a no-op at the root; with a non-empty navigation
path it removes the last segment and re-resolves that path from the root;
and after a fully successful three-segment navigation it reaches the same
current subtree as navigating to the two-segment path directly. -/
theorem go_back_spec :
    (∀ s : JsonExplorer, s.navigation_path = [] → go_back s = s) ∧
    (∀ s : JsonExplorer, s.navigation_path ≠ [] →
      go_back s = navigate_to_path
        { s with navigation_path := s.navigation_path.dropLast }
        s.navigation_path.dropLast) ∧
    (∀ (s : JsonExplorer) (a b c : String),
      (navigate_to_path s [a, b, c]).navigation_path = [a, b, c] →
      (go_back (navigate_to_path s [a, b, c])).current_data =
        (navigate_to_path s [a, b]).current_data) := by
  refine ⟨?_, ?_, ?_⟩
  · intro s h
    simp [go_back, h]
  · intro s h
    simp [go_back, h]
  · intro s a b c hfull
    cases h : s.root_data with
    | none =>
      rw [navigate_none s h] at hfull ⊢
      rw [navigate_none s h]
      have hne : s.navigation_path ≠ [] := by rw [hfull]; simp
      simp only [go_back, hfull]
      rw [if_neg (by simp)]
      rw [navigate_none _ (by simpa using h)]
    | some root =>
      have h1 := navigate_fields s root [a, b, c] h
      rw [h1] at hfull ⊢
      simp only at hfull
      rw [go_back]
      rw [if_neg (by simp [hfull])]
      simp only [hfull]
      have hdrop : ([a, b, c] : List String).dropLast = [a, b] := by simp
      rw [hdrop]
      rw [navigate_fields _ root [a, b] (by exact h), navigate_fields s root [a, b] h]

theorem go_back_spec_witness :
    (navigate_to_path sampleState ["a", "2", "b"]).navigation_path = ["a", "2", "b"] ∧
    (go_back (navigate_to_path sampleState ["a", "2", "b"])).current_data =
      (navigate_to_path sampleState ["a", "2"]).current_data :=
  ⟨rfl, go_back_spec.2.2 sampleState "a" "2" "b" rfl⟩

theorem resolve_isSome_of_append (cur : JsonValue) (p t : List String) (v : JsonValue)
    (h : resolve cur (p ++ t) = some v) : (resolve cur p).isSome = true := by
  rw [resolve_append] at h
  cases hp : resolve cur p with
  | none => rw [hp] at h; simp at h
  | some m => simp

theorem navigate_invariant (s : JsonExplorer) (path : List String) :
    stateInvariant (navigate_to_path s path) := by
  cases h : s.root_data with
  | none =>
    rw [navigate_none s h]
    intro root hr
    rw [h] at hr
    exact absurd hr (by simp)
  | some root =>
    rw [navigate_fields s root path h]
    intro root' hr
    simp only at hr
    rw [h] at hr
    injection hr with hr'
    subst hr'
    obtain ⟨hpre, hres, hext⟩ := navLoop_sound path root
    refine ⟨hres.symm, ?_⟩
    intro p t hpt
    exact resolve_isSome_of_append root p t _ (by rw [hpt]; exact hres)

/-- **C8**: after navigation, after `go_back` from an invariant-satisfying
state, and after a successful load, the derived-state invariant holds:
with a document present, every prefix of the navigation path resolves from
the root, and the current subtree equals the resolution of the navigation
path. -/
theorem derived_state_invariant :
    (∀ (s : JsonExplorer) (path : List String), stateInvariant (navigate_to_path s path)) ∧
    (∀ s : JsonExplorer, stateInvariant s → stateInvariant (go_back s)) ∧
    (∀ (s : JsonExplorer) (p : String) (r : Except String String) (out : JsonExplorer),
      load_file s p r = (out, Except.ok ()) → stateInvariant out) := by
  refine ⟨navigate_invariant, ?_, ?_⟩
  · intro s hs
    by_cases h : s.navigation_path = []
    · rw [go_back, if_pos h]
      exact hs
    · rw [go_back, if_neg h]
      exact navigate_invariant _ _
  · intro s p r out h
    match r with
    | .error e => simp [load_file] at h
    | .ok content =>
      cases hp : parseJson content with
      | none => simp [load_file, hp] at h
      | some data =>
        simp only [load_file, hp] at h
        obtain ⟨h1, -⟩ := Prod.mk.injEq .. ▸ h
        subst h1
        intro root hr
        simp only [update_selected_json] at hr ⊢
        injection hr with hr'
        subst hr'
        refine ⟨rfl, ?_⟩
        intro q t hqt
        obtain ⟨hq, -⟩ := List.append_eq_nil.mp hqt
        subst hq
        rfl

theorem derived_state_invariant_witness : stateInvariant (go_back sampleState) := by
  apply derived_state_invariant.2.1
  intro root hr
  rw [show sampleState.root_data = some sampleRoot from rfl] at hr
  injection hr with hr'
  subst hr'
  refine ⟨rfl, ?_⟩
  intro q t hqt
  obtain ⟨hq, -⟩ := List.append_eq_nil.mp hqt
  subst hq
  rfl

/-- **C2**: loading is all-or-nothing — an I/O failure or unparseable
content returns an error and leaves the entire prior state (all fields)
untouched. -/
theorem load_file_all_or_nothing :
    (∀ (s : JsonExplorer) (p e : String),
      load_file s p (Except.error e) = (s, Except.error e)) ∧
    (∀ (s : JsonExplorer) (p c : String), parseJson c = none →
      load_file s p (Except.ok c) = (s, Except.error "invalid JSON")) := by
  refine ⟨fun s p e => rfl, fun s p c h => ?_⟩
  simp [load_file, h]

theorem load_file_all_or_nothing_witness :
    parseJson "nonsense" = none ∧
    load_file sampleState "f.json" (Except.ok "nonsense") =
      (sampleState, Except.error "invalid JSON") :=
  ⟨rfl, load_file_all_or_nothing.2 sampleState "f.json" "nonsense" rfl⟩

theorem parseUsize_bracket (t : String) : parseUsize ("[" ++ t ++ "]") = none := by
  have hdata : ("[" ++ t ++ "]").data = '[' :: (t.data ++ [']']) := by
    rw [String.data_append, String.data_append]
    rfl
  simp [parseUsize, hdata]

/-- **C10**: the renderer's bracketed array child labels `[i]` never
resolve — navigating a fully valid path to an array extended by such a
label truncates at the array: the navigation path stays at the valid
path and the current subtree is the array itself, because a bracketed
segment does not parse as a non-negative integer. -/
theorem bracket_label_never_resolves (s : JsonExplorer) (root : JsonValue)
    (p : List String) (xs : List JsonValue) (i : Nat)
    (h : s.root_data = some root) (hres : resolve root p = some (.arr xs)) :
    (navigate_to_path s (p ++ ["[" ++ toString i ++ "]"])).navigation_path = p ∧
    (navigate_to_path s (p ++ ["[" ++ toString i ++ "]"])).current_data =
      some (.arr xs) := by
  have hstep : step (.arr xs) ("[" ++ toString i ++ "]") = none := by
    simp [step, parseUsize_bracket]
  have hnl : navLoop root (p ++ ["[" ++ toString i ++ "]"]) = (p, .arr xs) := by
    rw [navLoop_append_of_resolve p root (.arr xs) _ hres]
    simp [navLoop, hstep]
  rw [navigate_fields s root _ h, hnl]
  exact ⟨rfl, rfl⟩

theorem bracket_label_never_resolves_witness :
    sampleState.root_data = some sampleRoot ∧
    resolve sampleRoot ["a"] = some (.arr [.num 1, .num 2, .obj [("b", .str "x")]]) ∧
    (navigate_to_path sampleState
      (["a"] ++ ["[" ++ toString 2 ++ "]"])).navigation_path = ["a"] :=
  ⟨rfl, rfl,
    (bracket_label_never_resolves sampleState sampleRoot ["a"] _ 2 rfl rfl).1⟩

/-- **C3** (refuted — the code panics): rendering the scalar string of 48
`a`s followed by `é` is undefined: its quoted projection is 52 bytes long,
byte offset 50 falls inside the two-byte `é`, and the byte slice
`&value_str[..50]` taken by the truncation panics; the model returns
`none` for both the truncation and the whole render pass. -/
theorem render_scalar_panics :
    displayValue (scalarProj (.str (String.mk (List.replicate 48 'a' ++ ['é'])))).2 = none ∧
    renderTree false false [] (.str (String.mk (List.replicate 48 'a' ++ ['é']))) "" [] =
      none :=
  ⟨rfl, rfl⟩

/-- **C4** (refuting the claim as stated): the truncation threshold is
measured in UTF-8 bytes, not characters — the 28-character projection of
the string `a` followed by 25 `é`s is not shown in full. -/
theorem scalar_truncation_counterexample :
    (scalarProj (.str ("a" ++ String.mk (List.replicate 25 'é')))).2.length ≤ 50 ∧
    displayValue (scalarProj (.str ("a" ++ String.mk (List.replicate 25 'é')))).2 ≠
      some (scalarProj (.str ("a" ++ String.mk (List.replicate 25 'é')))).2 :=
  ⟨by decide, by decide⟩

/-- **C4** (amended): the scalar value projection is shown in full when it
is at most 50 UTF-8 bytes long; when longer, and byte offset 50 is a
character boundary, it is cut to its first 50 bytes followed by the
ellipsis marker; a 60-character ASCII string renders truncated and a
40-character ASCII string renders in full. -/
theorem scalar_truncation_amended :
    (∀ v : JsonValue, (scalarProj v).2.utf8ByteSize ≤ 50 →
      displayValue (scalarProj v).2 = some (scalarProj v).2) ∧
    (∀ (v : JsonValue) (taken : List Char),
      50 < (scalarProj v).2.utf8ByteSize →
      takeBytes 50 (scalarProj v).2.data = some taken →
      displayValue (scalarProj v).2 = some (String.mk taken ++ "...")) ∧
    displayValue (scalarProj (.str (String.mk (List.replicate 60 'a')))).2 =
      some (String.mk ('"' :: List.replicate 49 'a') ++ "...") ∧
    displayValue (scalarProj (.str (String.mk (List.replicate 40 'a')))).2 =
      some (scalarProj (.str (String.mk (List.replicate 40 'a')))).2 := by
  refine ⟨?_, ?_, by decide, by decide⟩
  · intro v h
    simp only [displayValue]
    rw [if_neg (by omega)]
  · intro v taken h1 h2
    simp only [displayValue]
    rw [if_pos (by omega), h2]

theorem scalar_truncation_amended_witness :
    (scalarProj (.num 5)).2.utf8ByteSize ≤ 50 ∧
    displayValue (scalarProj (.num 5)).2 = some (scalarProj (.num 5)).2 :=
  ⟨by decide, scalar_truncation_amended.1 (.num 5) (by decide)⟩

theorem renderRows_structure (st sv st2 sv2 : Bool) (exp : List (String × Bool)) :
    ∀ v : JsonValue, ∀ (key : String) (path : List String),
      (renderTree st sv exp v key path).map (List.map Prod.fst) =
      (renderTree st2 sv2 exp v key path).map (List.map Prod.fst) := by
  have hent : ∀ (l : List (String × JsonValue)),
      (∀ kv ∈ l, ∀ (key : String) (path : List String),
        (renderTree st sv exp kv.2 key path).map (List.map Prod.fst) =
        (renderTree st2 sv2 exp kv.2 key path).map (List.map Prod.fst)) →
      ∀ p, (renderEntries st sv exp l p).map (List.map Prod.fst) =
        (renderEntries st2 sv2 exp l p).map (List.map Prod.fst) := by
    intro l
    induction l with
    | nil => intro _ p; rfl
    | cons kv rest ih =>
      intro hmem p
      obtain ⟨k, v⟩ := kv
      have hv := hmem (k, v) (by simp) k p
      have hr := ih (fun kv hkv => hmem kv (by simp [hkv])) p
      cases h1 : renderTree st sv exp v k p with
      | none =>
        rw [h1] at hv
        cases h2 : renderTree st2 sv2 exp v k p with
        | none => simp [renderEntries, h1, h2]
        | some r2 => rw [h2] at hv; simp at hv
      | some r1 =>
        rw [h1] at hv
        cases h2 : renderTree st2 sv2 exp v k p with
        | none => rw [h2] at hv; simp at hv
        | some r2 =>
          rw [h2] at hv
          simp only [Option.map_some'] at hv
          cases h3 : renderEntries st sv exp rest p with
          | none =>
            rw [h3] at hr
            cases h4 : renderEntries st2 sv2 exp rest p with
            | none => simp [renderEntries, h1, h2, h3, h4]
            | some m2 => rw [h4] at hr; simp at hr
          | some m1 =>
            rw [h3] at hr
            cases h4 : renderEntries st2 sv2 exp rest p with
            | none => rw [h4] at hr; simp at hr
            | some m2 =>
              rw [h4] at hr
              simp only [Option.map_some'] at hr
              simp only [renderEntries, h1, h2, h3, h4]
              simp only [Option.map_some', Option.some.injEq]
              injection hv with hv'
              injection hr with hr'
              simp [hv', hr']
  have hitem : ∀ (l : List JsonValue),
      (∀ x ∈ l, ∀ (key : String) (path : List String),
        (renderTree st sv exp x key path).map (List.map Prod.fst) =
        (renderTree st2 sv2 exp x key path).map (List.map Prod.fst)) →
      ∀ i p, (renderItems st sv exp l i p).map (List.map Prod.fst) =
        (renderItems st2 sv2 exp l i p).map (List.map Prod.fst) := by
    intro l
    induction l with
    | nil => intro _ i p; rfl
    | cons x rest ih =>
      intro hmem i p
      have hv := hmem x (by simp) ("[" ++ toString i ++ "]") p
      have hr := ih (fun x hx => hmem x (by simp [hx])) (i + 1) p
      cases h1 : renderTree st sv exp x ("[" ++ toString i ++ "]") p with
      | none =>
        rw [h1] at hv
        cases h2 : renderTree st2 sv2 exp x ("[" ++ toString i ++ "]") p with
        | none => simp [renderItems, h1, h2]
        | some r2 => rw [h2] at hv; simp at hv
      | some r1 =>
        rw [h1] at hv
        cases h2 : renderTree st2 sv2 exp x ("[" ++ toString i ++ "]") p with
        | none => rw [h2] at hv; simp at hv
        | some r2 =>
          rw [h2] at hv
          simp only [Option.map_some'] at hv
          cases h3 : renderItems st sv exp rest (i + 1) p with
          | none =>
            rw [h3] at hr
            cases h4 : renderItems st2 sv2 exp rest (i + 1) p with
            | none => simp [renderItems, h1, h2, h3, h4]
            | some m2 => rw [h4] at hr; simp at hr
          | some m1 =>
            rw [h3] at hr
            cases h4 : renderItems st2 sv2 exp rest (i + 1) p with
            | none => rw [h4] at hr; simp at hr
            | some m2 =>
              rw [h4] at hr
              simp only [Option.map_some'] at hr
              simp only [renderItems, h1, h2, h3, h4]
              simp only [Option.map_some', Option.some.injEq]
              injection hv with hv'
              injection hr with hr'
              simp [hv', hr']
  intro v
  induction v using jsonInd with
  | h0 =>
    intro key path
    cases hd : displayValue (scalarProj .null).2 with
    | none => simp [renderTree, hd]
    | some dv => simp [renderTree, hd]
  | h1 b =>
    intro key path
    cases hd : displayValue (scalarProj (.bool b)).2 with
    | none => simp [renderTree, hd]
    | some dv => simp [renderTree, hd]
  | h2 n =>
    intro key path
    cases hd : displayValue (scalarProj (.num n)).2 with
    | none => simp [renderTree, hd]
    | some dv => simp [renderTree, hd]
  | h3 s =>
    intro key path
    cases hd : displayValue (scalarProj (.str s)).2 with
    | none => simp [renderTree, hd]
    | some dv => simp [renderTree, hd]
  | h4 xs hmem =>
    intro key path
    cases hx : expLookup exp (nodeId path key) with
    | false => simp [renderTree, hx]
    | true =>
      have := hitem xs hmem 0 (childPath path key)
      cases h3 : renderItems st sv exp xs 0 (childPath path key) with
      | none =>
        rw [h3] at this
        cases h4 : renderItems st2 sv2 exp xs 0 (childPath path key) with
        | none => simp [renderTree, hx, h3, h4]
        | some m2 => rw [h4] at this; simp at this
      | some m1 =>
        rw [h3] at this
        cases h4 : renderItems st2 sv2 exp xs 0 (childPath path key) with
        | none => rw [h4] at this; simp at this
        | some m2 =>
          rw [h4] at this
          simp only [Option.map_some'] at this
          injection this with h5
          simp [renderTree, hx, h3, h4, h5]
  | h5 kvs hmem =>
    intro key path
    cases hx : expLookup exp (nodeId path key) with
    | false => simp [renderTree, hx]
    | true =>
      have := hent kvs hmem (childPath path key)
      cases h3 : renderEntries st sv exp kvs (childPath path key) with
      | none =>
        rw [h3] at this
        cases h4 : renderEntries st2 sv2 exp kvs (childPath path key) with
        | none => simp [renderTree, hx, h3, h4]
        | some m2 => rw [h4] at this; simp at this
      | some m1 =>
        rw [h3] at this
        cases h4 : renderEntries st2 sv2 exp kvs (childPath path key) with
        | none => rw [h4] at this; simp at this
        | some m2 =>
          rw [h4] at this
          simp only [Option.map_some'] at this
          injection this with h5
          simp [renderTree, hx, h3, h4, h5]

/-- **C9**: the display-option toggles change only the flag itself —
expansion state, navigation path, current subtree, raw text, document and
file path are untouched — and a render pass under any combination of the
options succeeds or panics identically and produces the same node
identifiers in the same order; only label texts can differ. -/
theorem display_toggles_frame :
    (∀ s : JsonExplorer,
      (toggle_show_types s).expanded_nodes = s.expanded_nodes ∧
      (toggle_show_types s).navigation_path = s.navigation_path ∧
      (toggle_show_types s).current_data = s.current_data ∧
      (toggle_show_types s).selected_json = s.selected_json ∧
      (toggle_show_types s).root_data = s.root_data ∧
      (toggle_show_types s).current_file_path = s.current_file_path ∧
      (toggle_show_values s).expanded_nodes = s.expanded_nodes ∧
      (toggle_show_values s).navigation_path = s.navigation_path ∧
      (toggle_show_values s).current_data = s.current_data ∧
      (toggle_show_values s).selected_json = s.selected_json ∧
      (toggle_show_values s).root_data = s.root_data ∧
      (toggle_show_values s).current_file_path = s.current_file_path) ∧
    (∀ (st sv st2 sv2 : Bool) (exp : List (String × Bool)) (v : JsonValue)
        (key : String) (path : List String),
      (renderTree st sv exp v key path).map (List.map Prod.fst) =
      (renderTree st2 sv2 exp v key path).map (List.map Prod.fst)) :=
  ⟨fun _ => ⟨rfl, rfl, rfl, rfl, rfl, rfl, rfl, rfl, rfl, rfl, rfl, rfl⟩,
   fun st sv st2 sv2 exp v key path => renderRows_structure st sv st2 sv2 exp v key path⟩

theorem ne_of_digit_of_not {c c2 : Char} (h : c.isDigit = true) (h2 : c2.isDigit = false) :
    c ≠ c2 := by
  intro he
  rw [he, h2] at h
  cases h

theorem digitChar_isDigit {d : Nat} (h : d < 10) : (digitChar d).isDigit = true := by
  have hc : d = 0 ∨ d = 1 ∨ d = 2 ∨ d = 3 ∨ d = 4 ∨ d = 5 ∨ d = 6 ∨ d = 7 ∨ d = 8 ∨ d = 9 := by
    omega
  rcases hc with rfl | rfl | rfl | rfl | rfl | rfl | rfl | rfl | rfl | rfl <;> decide

theorem digitChar_ne_zero {d : Nat} (h0 : 0 < d) (h : d < 10) : digitChar d ≠ '0' := by
  have hc : d = 1 ∨ d = 2 ∨ d = 3 ∨ d = 4 ∨ d = 5 ∨ d = 6 ∨ d = 7 ∨ d = 8 ∨ d = 9 := by
    omega
  rcases hc with rfl | rfl | rfl | rfl | rfl | rfl | rfl | rfl | rfl <;> decide

theorem digitChar_val {d : Nat} (h : d < 10) : (digitChar d).toNat - 48 = d := by
  have hc : d = 0 ∨ d = 1 ∨ d = 2 ∨ d = 3 ∨ d = 4 ∨ d = 5 ∨ d = 6 ∨ d = 7 ∨ d = 8 ∨ d = 9 := by
    omega
  rcases hc with rfl | rfl | rfl | rfl | rfl | rfl | rfl | rfl | rfl | rfl <;> decide

theorem isWs_false_of_digit {c : Char} (h : c.isDigit = true) : isWs c = false := by
  rw [isWs]
  have h1 : c ≠ ' ' := ne_of_digit_of_not h (by decide)
  have h2 : c ≠ '\t' := ne_of_digit_of_not h (by decide)
  have h3 : c ≠ '\n' := ne_of_digit_of_not h (by decide)
  have h4 : c ≠ '\x0d' := ne_of_digit_of_not h (by decide)
  simp [h1, h2, h3, h4]

theorem printNatAux_irrel : ∀ (n f1 f2 : Nat), n < f1 → n < f2 →
    printNatAux f1 n = printNatAux f2 n := by
  intro n
  induction n using Nat.strong_induction_on with
  | _ n ih =>
    intro f1 f2 h1 h2
    match f1, f2 with
    | g1 + 1, g2 + 1 =>
      rw [printNatAux, printNatAux]
      by_cases hn : n < 10
      · rw [if_pos hn, if_pos hn]
      · rw [if_neg hn, if_neg hn]
        have hdiv : n / 10 < n := Nat.div_lt_self (by omega) (by omega)
        rw [ih (n / 10) hdiv g1 g2 (by omega) (by omega)]

theorem printNat_eq (n : Nat) :
    printNat n = if n < 10 then [digitChar n] else printNat (n / 10) ++ [digitChar (n % 10)] := by
  rw [printNat, printNatAux]
  by_cases hn : n < 10
  · rw [if_pos hn, if_pos hn]
  · rw [if_neg hn, if_neg hn, printNat]
    have hdiv : n / 10 < n := Nat.div_lt_self (by omega) (by omega)
    rw [printNatAux_irrel (n / 10) n (n / 10 + 1) hdiv (by omega)]

theorem printNat_spec : ∀ n : Nat, ∃ c cs, printNat n = c :: cs ∧ c.isDigit = true ∧
    (0 < n → c ≠ '0') ∧ ∀ x ∈ cs, x.isDigit = true := by
  intro n
  induction n using Nat.strong_induction_on with
  | _ n ih =>
    rw [printNat_eq]
    by_cases hn : n < 10
    · rw [if_pos hn]
      exact ⟨digitChar n, [], rfl, digitChar_isDigit hn,
        fun h0 => digitChar_ne_zero h0 hn, by simp⟩
    · rw [if_neg hn]
      have hdiv : n / 10 < n := Nat.div_lt_self (by omega) (by omega)
      obtain ⟨c, cs, heq, hdig, hz, hall⟩ := ih (n / 10) hdiv
      refine ⟨c, cs ++ [digitChar (n % 10)], by rw [heq]; simp, hdig,
        fun _ => hz (by omega), ?_⟩
      intro x hx
      rcases List.mem_append.mp hx with hx1 | hx2
      · exact hall x hx1
      · rw [List.mem_singleton.mp hx2]
        exact digitChar_isDigit (by omega)

theorem foldl_printNat : ∀ n acc : Nat,
    List.foldl (fun a c => a * 10 + (c.toNat - 48)) acc (printNat n) =
      acc * 10 ^ (printNat n).length + n := by
  intro n
  induction n using Nat.strong_induction_on with
  | _ n ih =>
    intro acc
    rw [printNat_eq]
    by_cases hn : n < 10
    · rw [if_pos hn]
      simp [digitChar_val hn]
    · rw [if_neg hn]
      have hdiv : n / 10 < n := Nat.div_lt_self (by omega) (by omega)
      rw [List.foldl_append, ih (n / 10) hdiv acc]
      simp only [List.foldl_cons, List.foldl_nil, List.length_append, List.length_cons,
        List.length_nil]
      rw [digitChar_val (by omega : n % 10 < 10)]
      rw [pow_succ]
      have hmod := Nat.div_add_mod n 10
      ring_nf
      omega

theorem consumeDigits_append : ∀ (l : List Char), (∀ c ∈ l, c.isDigit = true) →
    ∀ (rest : List Char), noDigitHead rest → ∀ acc,
    consumeDigits acc (l ++ rest) =
      (List.foldl (fun a c => a * 10 + (c.toNat - 48)) acc l, rest) := by
  intro l
  induction l with
  | nil =>
    intro _ rest hr acc
    match rest with
    | [] => rfl
    | c :: cs =>
      rw [noDigitHead] at hr
      simp [consumeDigits, hr]
  | cons c cs ih =>
    intro hl rest hr acc
    have hc := hl c (by simp)
    simp only [List.cons_append, consumeDigits, hc, if_pos, List.append_eq]
    rw [ih (fun x hx => hl x (by simp [hx])) rest hr]
    simp

theorem parseIntPart_printNat (n : Nat) (rest : List Char) (hr : noDigitHead rest) :
    parseIntPart (printNat n ++ rest) = some (n, rest) := by
  by_cases h0 : n = 0
  · subst h0
    simp [printNat, printNatAux, parseIntPart, digitChar]
  · obtain ⟨c, cs, heq, hdig, hz, hall⟩ := printNat_spec n
    rw [heq]
    simp only [List.cons_append, parseIntPart]
    rw [if_neg (hz (by omega)), if_pos hdig]
    rw [consumeDigits_append cs hall rest hr]
    have hf := foldl_printNat n 0
    rw [heq] at hf
    simp only [List.foldl_cons, Nat.zero_mul, Nat.zero_add] at hf
    rw [hf]

theorem checkIntEnd_numSafe (v : JsonValue) (rest : List Char) (h : numSafe rest) :
    checkIntEnd v rest = some (v, rest) := by
  match rest with
  | [] => rfl
  | c :: cs =>
    obtain ⟨-, h1, h2, h3⟩ := h
    simp [checkIntEnd, h1, h2, h3]

theorem noDigitHead_of_numSafe {rest : List Char} (h : numSafe rest) : noDigitHead rest := by
  match rest with
  | [] => trivial
  | c :: cs => exact h.1

theorem parseNumber_printInt (i : Int) (rest : List Char) (h : numSafe rest) :
    parseNumber (printInt i ++ rest) = some (.num i, rest) := by
  have hce : ∀ v, checkIntEnd v rest = some (v, rest) := fun v => checkIntEnd_numSafe v rest h
  by_cases hi : i < 0
  · rw [printInt, if_pos hi]
    simp only [List.cons_append, parseNumber, if_true]
    rw [parseIntPart_printNat i.natAbs rest (noDigitHead_of_numSafe h)]
    simp only [hce, Option.some.injEq, Prod.mk.injEq, JsonValue.num.injEq]
    exact ⟨by omega, trivial⟩
  · rw [printInt, if_neg hi]
    obtain ⟨c, cs, heq, hdig, -, -⟩ := printNat_spec i.natAbs
    rw [heq]
    simp only [List.cons_append, parseNumber]
    rw [if_neg (ne_of_digit_of_not hdig (by decide))]
    rw [← List.cons_append, ← heq]
    rw [parseIntPart_printNat i.natAbs rest (noDigitHead_of_numSafe h)]
    simp only [hce, Option.some.injEq, Prod.mk.injEq, JsonValue.num.injEq]
    exact ⟨by omega, trivial⟩

theorem skipWs_not_ws {c : Char} (l : List Char) (h : isWs c = false) :
    skipWs (c :: l) = c :: l := by
  simp [skipWs, h]

theorem skipWs_ws_cons {c : Char} (l : List Char) (h : isWs c = true) :
    skipWs (c :: l) = skipWs l := by
  simp [skipWs, h]

theorem skipWs_replicate : ∀ (m : Nat) (l : List Char),
    skipWs (List.replicate m ' ' ++ l) = skipWs l := by
  intro m
  induction m with
  | zero => intro l; simp
  | succ m ih =>
    intro l
    rw [List.replicate_succ, List.cons_append, skipWs_ws_cons _ (by decide), ih]

theorem skipWs_indent (k : Nat) (l : List Char) : skipWs (indentChars k ++ l) = skipWs l :=
  skipWs_replicate (2 * k) l

theorem startsValue_append {l : List Char} (rest : List Char) (h : startsValue l) :
    startsValue (l ++ rest) := by
  match l with
  | [] => exact absurd h (by simp [startsValue])
  | c :: cs => exact h

theorem skipWs_of_startsValue : ∀ {l : List Char}, startsValue l → skipWs l = l := by
  intro l h
  match l with
  | [] => rfl
  | c :: cs => exact skipWs_not_ws cs h.1

theorem startsValue_digit {c : Char} (h : c.isDigit = true) (cs : List Char) :
    startsValue (c :: cs) :=
  ⟨isWs_false_of_digit h, ne_of_digit_of_not h (by decide),
    ne_of_digit_of_not h (by decide), ne_of_digit_of_not h (by decide)⟩

theorem prettyAux_startsValue : ∀ (v : JsonValue) (k : Nat), startsValue (prettyAux k v) := by
  intro v k
  match v with
  | .null => exact ⟨by decide, by decide, by decide, by decide⟩
  | .bool true => exact ⟨by decide, by decide, by decide, by decide⟩
  | .bool false => exact ⟨by decide, by decide, by decide, by decide⟩
  | .num i =>
    show startsValue (printInt i)
    rw [printInt]
    by_cases hi : i < 0
    · rw [if_pos hi]
      exact ⟨by decide, by decide, by decide, by decide⟩
    · rw [if_neg hi]
      obtain ⟨c, cs, heq, hdig, -, -⟩ := printNat_spec i.natAbs
      rw [heq]
      exact startsValue_digit hdig cs
  | .str s => exact ⟨by decide, by decide, by decide, by decide⟩
  | .arr [] => exact ⟨by decide, by decide, by decide, by decide⟩
  | .arr (x :: xs) => exact ⟨by decide, by decide, by decide, by decide⟩
  | .obj [] => exact ⟨by decide, by decide, by decide, by decide⟩
  | .obj (e :: kvs) => exact ⟨by decide, by decide, by decide, by decide⟩

theorem hexVal_hexDigit {m : Nat} (h : m < 16) : hexVal (hexDigit m) = some m := by
  have hc : m = 0 ∨ m = 1 ∨ m = 2 ∨ m = 3 ∨ m = 4 ∨ m = 5 ∨ m = 6 ∨ m = 7 ∨ m = 8 ∨
      m = 9 ∨ m = 10 ∨ m = 11 ∨ m = 12 ∨ m = 13 ∨ m = 14 ∨ m = 15 := by omega
  rcases hc with rfl | rfl | rfl | rfl | rfl | rfl | rfl | rfl | rfl | rfl | rfl | rfl |
    rfl | rfl | rfl | rfl <;> decide

theorem escList_cons (c : Char) (l : List Char) :
    escList (c :: l) = escapeChar c ++ escList l := by
  simp [escList]

theorem parseStringBody_escList : ∀ (l : List Char) (rest : List Char),
    parseStringBody (escList l ++ '"' :: rest) = some (l, rest) := by
  intro l
  induction l with
  | nil => intro rest; simp [escList, parseStringBody]
  | cons c cs ih =>
    intro rest
    rw [escList_cons, List.append_assoc]
    by_cases h1 : c = '"'
    · subst h1; simp [escapeChar, parseStringBody, parseEscape, consRes, ih]
    · by_cases h2 : c = '\\'
      · subst h2; simp [escapeChar, parseStringBody, parseEscape, consRes, ih]
      · by_cases h3 : c = '\x08'
        · subst h3; simp [escapeChar, parseStringBody, parseEscape, consRes, ih]
        · by_cases h4 : c = '\x09'
          · subst h4; simp [escapeChar, parseStringBody, parseEscape, consRes, ih]
          · by_cases h5 : c = '\x0a'
            · subst h5; simp [escapeChar, parseStringBody, parseEscape, consRes, ih]
            · by_cases h6 : c = '\x0c'
              · subst h6; simp [escapeChar, parseStringBody, parseEscape, consRes, ih]
              · by_cases h7 : c = '\x0d'
                · subst h7; simp [escapeChar, parseStringBody, parseEscape, consRes, ih]
                · by_cases h8 : c.toNat < 0x20
                  · rw [escapeChar, if_neg h1, if_neg h2, if_neg h3, if_neg h4, if_neg h5,
                      if_neg h6, if_neg h7, if_pos h8]
                    have hu : c.toNat / 16 < 16 := by omega
                    have hv : c.toNat % 16 < 16 := Nat.mod_lt _ (by omega)
                    have h00 : hexVal '0' = some 0 := by decide
                    have hhex : hex4 '0' '0' (hexDigit (c.toNat / 16))
                        (hexDigit (c.toNat % 16)) = some c.toNat := by
                      rw [hex4, h00, hexVal_hexDigit hu, hexVal_hexDigit hv]
                      simp only [Option.some.injEq]
                      omega
                    simp only [List.cons_append, List.nil_append]
                    rw [parseStringBody]
                    rw [if_neg (by decide : ¬('\\' = '"'))]
                    rw [if_pos (rfl : ('\\' : Char) = '\\')]
                    rw [parseEscape]
                    rw [if_neg (by decide : ¬('u' = 'b')), if_neg (by decide : ¬('u' = 'f')),
                      if_neg (by decide : ¬('u' = 'n')), if_neg (by decide : ¬('u' = 'r')),
                      if_neg (by decide : ¬('u' = 't')), if_neg (by decide : ¬('u' = '"')),
                      if_neg (by decide : ¬('u' = '\\')), if_neg (by decide : ¬('u' = '/'))]
                    rw [if_pos (rfl : ('u' : Char) = 'u')]
                    rw [parseUnicode]
                    simp only [hhex]
                    rw [if_pos (Or.inl (by omega : c.toNat < 55296))]
                    rw [ih rest]
                    simp [consRes, Char.ofNat_toNat]
                  · rw [escapeChar, if_neg h1, if_neg h2, if_neg h3, if_neg h4, if_neg h5,
                      if_neg h6, if_neg h7, if_neg h8]
                    simp only [List.cons_append, List.nil_append, List.append_eq,
                      parseStringBody]
                    rw [if_neg h1, if_neg h2, if_neg (by omega : ¬c.toNat < 0x20)]
                    rw [ih rest]
                    simp [consRes]

theorem prettyItems_decomp : ∀ (xs : List JsonValue) (k : Nat) (x : JsonValue)
    (closing : List Char),
    prettyItems k (x :: xs) ++ closing =
      indentChars k ++ (prettyAux k x ++ itemsTail k closing xs) := by
  intro xs
  induction xs with
  | nil =>
    intro k x closing
    simp [prettyItems, itemsTail, List.append_assoc]
  | cons y ys ih =>
    intro k x closing
    rw [prettyItems, itemsTail, ← ih k y closing]
    simp [List.append_assoc]

theorem prettyEntries_decomp : ∀ (es : List (String × JsonValue)) (k : Nat) (key : String)
    (v : JsonValue) (closing : List Char),
    prettyEntries k ((key, v) :: es) ++ closing =
      indentChars k ++
        (quoteString key ++ ':' :: ' ' :: (prettyAux k v ++ entriesTail k closing es)) := by
  intro es
  induction es with
  | nil =>
    intro k key v closing
    simp [prettyEntries, entriesTail, List.append_assoc]
  | cons e rest ih =>
    intro k key v closing
    obtain ⟨k2, v2⟩ := e
    rw [prettyEntries]
    simp only [List.append_assoc, List.cons_append]
    rw [ih k k2 v2 closing, entriesTail]
    simp [List.append_assoc]

theorem fuelNeed_pos : ∀ v : JsonValue, 1 ≤ fuelNeed v := by
  intro v
  cases v <;> simp [fuelNeed]

theorem printInt_length_pos (i : Int) : 1 ≤ (printInt i).length := by
  obtain ⟨c, cs, heq, -, -, -⟩ := printNat_spec i.natAbs
  rw [printInt]
  by_cases hi : i < 0
  · rw [if_pos hi]; simp
  · rw [if_neg hi, heq]; simp

theorem fuelNeedItems_le : ∀ (xs : List JsonValue) (x : JsonValue),
    (∀ y ∈ x :: xs, ∀ k, fuelNeed y ≤ (prettyAux k y).length) →
    ∀ k, fuelNeedItems (x :: xs) ≤ (prettyItems k (x :: xs)).length + 1 := by
  intro xs
  induction xs with
  | nil =>
    intro x hmem k
    have hpa := hmem x (by simp) k
    have hpos := fuelNeed_pos x
    have hm : max (fuelNeed x) (fuelNeedItems []) ≤ (prettyAux k x).length := by
      rw [fuelNeedItems]
      exact max_le hpa (le_trans hpos hpa)
    simp only [fuelNeedItems, prettyItems, List.length_append]
    omega
  | cons y ys ih =>
    intro x hmem k
    have hpa := hmem x (by simp) k
    have hih := ih y (fun z hz k2 => hmem z (by simp at hz ⊢; tauto) k2) k
    have hm : max (fuelNeed x) (fuelNeedItems (y :: ys)) ≤
        (prettyAux k x).length + ((prettyItems k (y :: ys)).length + 1) :=
      max_le (le_trans hpa (Nat.le_add_right _ _)) (le_trans hih (Nat.le_add_left _ _))
    rw [show fuelNeedItems (x :: y :: ys) =
      1 + max (fuelNeed x) (fuelNeedItems (y :: ys)) from rfl]
    simp only [prettyItems, List.length_append, List.length_cons]
    omega

theorem fuelNeedEntries_le : ∀ (es : List (String × JsonValue)) (key : String)
    (v : JsonValue),
    (∀ kv ∈ (key, v) :: es, ∀ k, fuelNeed kv.2 ≤ (prettyAux k kv.2).length) →
    ∀ k, fuelNeedEntries ((key, v) :: es) ≤ (prettyEntries k ((key, v) :: es)).length + 1 := by
  intro es
  induction es with
  | nil =>
    intro key v hmem k
    have hpa := hmem (key, v) (by simp) k
    have hpos := fuelNeed_pos v
    have hm : max (fuelNeed v) (fuelNeedEntries []) ≤ (prettyAux k v).length := by
      rw [fuelNeedEntries]
      exact max_le hpa (le_trans hpos hpa)
    simp only [fuelNeedEntries, prettyEntries, List.length_append, List.length_cons]
    omega
  | cons e rest ih =>
    intro key v hmem k
    obtain ⟨k2, v2⟩ := e
    have hpa := hmem (key, v) (by simp) k
    have hih := ih k2 v2 (fun z hz k3 => hmem z (by simp at hz ⊢; tauto) k3) k
    have hm : max (fuelNeed v) (fuelNeedEntries ((k2, v2) :: rest)) ≤
        (prettyAux k v).length + ((prettyEntries k ((k2, v2) :: rest)).length + 1) :=
      max_le (le_trans hpa (Nat.le_add_right _ _)) (le_trans hih (Nat.le_add_left _ _))
    rw [show fuelNeedEntries ((key, v) :: (k2, v2) :: rest) =
      1 + max (fuelNeed v) (fuelNeedEntries ((k2, v2) :: rest)) from rfl]
    simp only [prettyEntries, List.length_append, List.length_cons]
    omega

theorem prettyAux_length_ge : ∀ v : JsonValue, ∀ k, fuelNeed v ≤ (prettyAux k v).length := by
  intro v
  induction v using jsonInd with
  | h0 => intro k; simp [prettyAux, fuelNeed]
  | h1 b => intro k; cases b <;> simp [prettyAux, fuelNeed]
  | h2 n =>
    intro k
    have := printInt_length_pos n
    simp only [prettyAux, fuelNeed]
    omega
  | h3 s => intro k; simp [prettyAux, fuelNeed, quoteString]
  | h4 xs hmem =>
    intro k
    match xs with
    | [] => simp [prettyAux, fuelNeed, fuelNeedItems]
    | x :: xs' =>
      have hit := fuelNeedItems_le xs' x hmem (k + 1)
      rw [show fuelNeed (.arr (x :: xs')) = 1 + fuelNeedItems (x :: xs') from rfl]
      simp only [prettyAux, List.length_append, List.length_cons]
      omega
  | h5 kvs hmem =>
    intro k
    match kvs with
    | [] => simp [prettyAux, fuelNeed, fuelNeedEntries]
    | (key, v) :: kvs' =>
      have hit := fuelNeedEntries_le kvs' key v hmem (k + 1)
      rw [show fuelNeed (.obj ((key, v) :: kvs')) =
        1 + fuelNeedEntries ((key, v) :: kvs') from rfl]
      simp only [prettyAux, List.length_append, List.length_cons]
      omega

theorem string_mk_data (s : String) : String.mk s.data = s := rfl

theorem wfList_mem : ∀ {xs : List JsonValue}, wfList xs = true → ∀ x ∈ xs, wfJson x = true := by
  intro xs
  induction xs with
  | nil => intro _ x hx; cases hx
  | cons y ys ih =>
    intro h x hx
    rw [wfList, Bool.and_eq_true] at h
    rcases hx with _ | hx
    · exact h.1
    · exact ih h.2 x (by assumption)

theorem wfEntries_cons {key : String} {v : JsonValue} {es : List (String × JsonValue)}
    (h : wfEntries ((key, v) :: es) = true) :
    hasKey es key = false ∧ wfJson v = true ∧ wfEntries es = true := by
  rw [wfEntries, Bool.and_eq_true, Bool.and_eq_true, Bool.not_eq_true'] at h
  exact ⟨h.1.1, h.1.2, h.2⟩

theorem hasKey_false_ne : ∀ (es : List (String × JsonValue)) (key : String),
    hasKey es key = false → ∀ kv ∈ es, kv.1 ≠ key := by
  intro es
  induction es with
  | nil => intro key _ kv hkv; cases hkv
  | cons e rest ih =>
    intro key h kv hkv
    obtain ⟨k1, v1⟩ := e
    rw [hasKey, lookupKey] at h
    by_cases hk : k1 = key
    · rw [if_pos hk] at h; cases h
    · rw [if_neg hk] at h
      rcases hkv with _ | hkv
      · exact hk
      · exact ih key h kv (by assumption)

theorem insertKV_append : ∀ (acc : List (String × JsonValue)) (key : String) (v : JsonValue),
    hasKey acc key = false → insertKV acc key v = acc ++ [(key, v)] := by
  intro acc
  induction acc with
  | nil => intro key v _; rfl
  | cons e rest ih =>
    intro key v h
    obtain ⟨k1, v1⟩ := e
    rw [hasKey, lookupKey] at h
    by_cases hk : k1 = key
    · rw [if_pos hk] at h; cases h
    · rw [if_neg hk] at h
      rw [insertKV, if_neg hk, ih key v h]
      simp

theorem hasKey_append_false : ∀ (acc : List (String × JsonValue)) (key x : String)
    (v : JsonValue), key ≠ x → hasKey acc x = false →
    hasKey (acc ++ [(key, v)]) x = false := by
  intro acc
  induction acc with
  | nil =>
    intro key x v hne _
    simp [hasKey, lookupKey, hne]
  | cons e rest ih =>
    intro key x v hne h
    obtain ⟨k1, v1⟩ := e
    rw [hasKey, lookupKey] at h
    by_cases hk : k1 = x
    · rw [if_pos hk] at h; cases h
    · rw [if_neg hk] at h
      simp only [List.cons_append, hasKey, lookupKey, if_neg hk]
      exact ih key x v hne h

theorem parseArrayTailF_items :
    ∀ (xs : List JsonValue),
    (∀ x ∈ xs, ∀ (k2 fuel : Nat) (input rest2 : List Char),
      fuelNeed x ≤ fuel → skipWs input = prettyAux k2 x ++ rest2 → numSafe rest2 →
      parseValueF fuel input = some (x, rest2)) →
    ∀ (acc : List JsonValue) (fuel kk kc : Nat) (rest : List Char),
      fuelNeedItems xs ≤ fuel → numSafe rest →
      parseArrayTailF fuel acc
        (itemsTail kk ('\n' :: (indentChars kc ++ (']' :: rest))) xs) =
        some (.arr (acc ++ xs), rest) := by
  intro xs
  induction xs with
  | nil =>
    intro hP acc fuel kk kc rest hfuel hsafe
    obtain ⟨f, rfl⟩ : ∃ f, fuel = f + 1 :=
      ⟨fuel - 1, by rw [show fuelNeedItems [] = 1 from rfl] at hfuel; omega⟩
    rw [itemsTail, parseArrayTailF]
    rw [skipWs_ws_cons _ (by decide), skipWs_indent, skipWs_not_ws _ (by decide)]
    simp
  | cons y ys ih =>
    intro hP acc fuel kk kc rest hfuel hsafe
    obtain ⟨f, rfl⟩ : ∃ f, fuel = f + 1 :=
      ⟨fuel - 1, by
        rw [show fuelNeedItems (y :: ys) = 1 + max (fuelNeed y) (fuelNeedItems ys) from rfl]
          at hfuel
        omega⟩
    have hm : max (fuelNeed y) (fuelNeedItems ys) ≤ f := by
      rw [show fuelNeedItems (y :: ys) = 1 + max (fuelNeed y) (fuelNeedItems ys) from rfl]
        at hfuel
      omega
    have hfy : fuelNeed y ≤ f := le_trans (le_max_left _ _) hm
    have hfys : fuelNeedItems ys ≤ f := le_trans (le_max_right _ _) hm
    rw [itemsTail, parseArrayTailF]
    rw [skipWs_not_ws _ (by decide : isWs ',' = false)]
    have hskip2 : skipWs ('\n' :: (indentChars kk ++
        (prettyAux kk y ++ itemsTail kk ('\n' :: (indentChars kc ++ (']' :: rest))) ys))) =
        prettyAux kk y ++ itemsTail kk ('\n' :: (indentChars kc ++ (']' :: rest))) ys := by
      rw [skipWs_ws_cons _ (by decide), skipWs_indent]
      exact skipWs_of_startsValue (startsValue_append _ (prettyAux_startsValue y kk))
    have hsafe2 : numSafe (itemsTail kk ('\n' :: (indentChars kc ++ (']' :: rest))) ys) := by
      cases ys with
      | nil => exact ⟨by decide, by decide, by decide, by decide⟩
      | cons z zs => exact ⟨by decide, by decide, by decide, by decide⟩
    have hpv := hP y (by simp) kk f _ _ hfy hskip2 hsafe2
    have hrec := ih (fun x hx => hP x (by simp [hx])) (acc ++ [y]) f kk kc rest hfys hsafe
    simp only [hpv, hrec]
    simp

theorem parseObjectTailF_entries :
    ∀ (es : List (String × JsonValue)),
    (∀ kv ∈ es, ∀ (k2 fuel : Nat) (input rest2 : List Char),
      fuelNeed kv.2 ≤ fuel → skipWs input = prettyAux k2 kv.2 ++ rest2 → numSafe rest2 →
      parseValueF fuel input = some (kv.2, rest2)) →
    wfEntries es = true →
    ∀ (acc : List (String × JsonValue)) (fuel kk kc : Nat) (rest : List Char),
      (∀ kv ∈ es, hasKey acc kv.1 = false) →
      fuelNeedEntries es ≤ fuel → numSafe rest →
      parseObjectTailF fuel acc
        (entriesTail kk ('\n' :: (indentChars kc ++ ('\x7d' :: rest))) es) =
        some (.obj (acc ++ es), rest) := by
  intro es
  induction es with
  | nil =>
    intro hP hwf acc fuel kk kc rest hfresh hfuel hsafe
    obtain ⟨f, rfl⟩ : ∃ f, fuel = f + 1 :=
      ⟨fuel - 1, by rw [show fuelNeedEntries [] = 1 from rfl] at hfuel; omega⟩
    rw [entriesTail, parseObjectTailF]
    rw [skipWs_ws_cons _ (by decide), skipWs_indent, skipWs_not_ws _ (by decide)]
    simp
  | cons e es' ih =>
    intro hP hwf acc fuel kk kc rest hfresh hfuel hsafe
    obtain ⟨key, v⟩ := e
    obtain ⟨hkfresh, hwfv, hwfes⟩ := wfEntries_cons hwf
    obtain ⟨f, rfl⟩ : ∃ f, fuel = f + 1 :=
      ⟨fuel - 1, by
        rw [show fuelNeedEntries ((key, v) :: es') =
          1 + max (fuelNeed v) (fuelNeedEntries es') from rfl] at hfuel
        omega⟩
    have hm : max (fuelNeed v) (fuelNeedEntries es') ≤ f := by
      rw [show fuelNeedEntries ((key, v) :: es') =
        1 + max (fuelNeed v) (fuelNeedEntries es') from rfl] at hfuel
      omega
    have hfv : fuelNeed v ≤ f := le_trans (le_max_left _ _) hm
    have hfes : fuelNeedEntries es' ≤ f := le_trans (le_max_right _ _) hm
    rw [entriesTail, parseObjectTailF]
    rw [skipWs_not_ws _ (by decide : isWs ',' = false)]
    have hskipkey : skipWs ('\n' :: (indentChars kk ++ (quoteString key ++ ':' :: ' ' ::
        prettyAux kk v ++ entriesTail kk ('\n' :: (indentChars kc ++ ('\x7d' :: rest))) es'))) =
        '"' :: (escList key.data ++ '"' :: (':' :: ' ' ::
          (prettyAux kk v ++
            entriesTail kk ('\n' :: (indentChars kc ++ ('\x7d' :: rest))) es'))) := by
      rw [skipWs_ws_cons _ (by decide), skipWs_indent, quoteString]
      simp only [List.cons_append, List.append_assoc]
      rw [skipWs_not_ws _ (by decide)]
      simp [List.append_assoc]
    have hpsb := parseStringBody_escList key.data (':' :: ' ' ::
      (prettyAux kk v ++ entriesTail kk ('\n' :: (indentChars kc ++ ('\x7d' :: rest))) es'))
    have hskipcolon : skipWs (':' :: ' ' ::
        (prettyAux kk v ++
          entriesTail kk ('\n' :: (indentChars kc ++ ('\x7d' :: rest))) es')) =
        ':' :: ' ' ::
          (prettyAux kk v ++
            entriesTail kk ('\n' :: (indentChars kc ++ ('\x7d' :: rest))) es') :=
      skipWs_not_ws _ (by decide)
    have hskipv : skipWs (' ' ::
        (prettyAux kk v ++
          entriesTail kk ('\n' :: (indentChars kc ++ ('\x7d' :: rest))) es')) =
        prettyAux kk v ++
          entriesTail kk ('\n' :: (indentChars kc ++ ('\x7d' :: rest))) es' := by
      rw [skipWs_ws_cons _ (by decide)]
      exact skipWs_of_startsValue (startsValue_append _ (prettyAux_startsValue v kk))
    have hsafe2 : numSafe
        (entriesTail kk ('\n' :: (indentChars kc ++ ('\x7d' :: rest))) es') := by
      cases es' with
      | nil => exact ⟨by decide, by decide, by decide, by decide⟩
      | cons z zs => exact ⟨by decide, by decide, by decide, by decide⟩
    have hpv := hP (key, v) (by simp) kk f _ _ hfv hskipv hsafe2
    have hins : insertKV acc (String.mk key.data) v = acc ++ [(key, v)] := by
      rw [string_mk_data]
      exact insertKV_append acc key v (hfresh (key, v) (by simp))
    have hfresh2 : ∀ kv ∈ es', hasKey (acc ++ [(key, v)]) kv.1 = false := by
      intro kv hkv
      exact hasKey_append_false acc key kv.1 v
        (Ne.symm (hasKey_false_ne es' key hkfresh kv hkv))
        (hfresh kv (by simp [hkv]))
    have hrec := ih (fun kv hkv => hP kv (by simp [hkv])) hwfes (acc ++ [(key, v)])
      f kk kc rest hfresh2 hfes hsafe
    simp only [hskipkey, hpsb, hskipcolon, hpv, hins, hrec]
    simp

theorem wfEntries_mem : ∀ (es : List (String × JsonValue)), wfEntries es = true →
    ∀ kv ∈ es, wfJson kv.2 = true := by
  intro es
  induction es with
  | nil => intro _ kv hkv; cases hkv
  | cons e rest ih =>
    intro h kv hkv
    obtain ⟨k1, v1⟩ := e
    obtain ⟨-, hv, hrest⟩ := wfEntries_cons h
    rcases hkv with _ | hkv
    · exact hv
    · exact ih hrest kv (by assumption)

theorem parse_printed : ∀ v : JsonValue, wfJson v = true →
    ∀ (k fuel : Nat) (input rest : List Char),
      fuelNeed v ≤ fuel →
      skipWs input = prettyAux k v ++ rest →
      numSafe rest →
      parseValueF fuel input = some (v, rest) := by
  intro v
  induction v using jsonInd with
  | h0 =>
    intro _ k fuel input rest hfuel hskip hsafe
    obtain ⟨f, rfl⟩ : ∃ f, fuel = f + 1 :=
      ⟨fuel - 1, by rw [show fuelNeed .null = 1 from rfl] at hfuel; omega⟩
    rw [parseValueF, hskip]
    simp [prettyAux, expectTail]
  | h1 b =>
    intro _ k fuel input rest hfuel hskip hsafe
    obtain ⟨f, rfl⟩ : ∃ f, fuel = f + 1 :=
      ⟨fuel - 1, by rw [show fuelNeed (.bool b) = 1 from rfl] at hfuel; omega⟩
    rw [parseValueF, hskip]
    cases b <;> simp [prettyAux, expectTail]
  | h2 n =>
    intro _ k fuel input rest hfuel hskip hsafe
    obtain ⟨f, rfl⟩ : ∃ f, fuel = f + 1 :=
      ⟨fuel - 1, by rw [show fuelNeed (.num n) = 1 from rfl] at hfuel; omega⟩
    rw [parseValueF, hskip]
    rw [show prettyAux k (.num n) = printInt n from rfl]
    have hpn := parseNumber_printInt n rest hsafe
    by_cases hn : n < 0
    · rw [printInt, if_pos hn]
      rw [printInt, if_pos hn] at hpn
      simp only [List.cons_append] at hpn ⊢
      simp [hpn]
    · obtain ⟨c, cs, heq, hdig, -, -⟩ := printNat_spec n.natAbs
      rw [printInt, if_neg hn, heq]
      rw [printInt, if_neg hn, heq] at hpn
      simp only [List.cons_append] at hpn ⊢
      have hne1 : c ≠ 'n' := ne_of_digit_of_not hdig (by decide)
      have hne2 : c ≠ 't' := ne_of_digit_of_not hdig (by decide)
      have hne3 : c ≠ 'f' := ne_of_digit_of_not hdig (by decide)
      have hne4 : c ≠ '"' := ne_of_digit_of_not hdig (by decide)
      have hne5 : c ≠ '[' := ne_of_digit_of_not hdig (by decide)
      have hne6 : c ≠ '\x7b' := ne_of_digit_of_not hdig (by decide)
      simp [hne1, hne2, hne3, hne4, hne5, hne6, hpn]
  | h3 s =>
    intro _ k fuel input rest hfuel hskip hsafe
    obtain ⟨f, rfl⟩ : ∃ f, fuel = f + 1 :=
      ⟨fuel - 1, by rw [show fuelNeed (.str s) = 1 from rfl] at hfuel; omega⟩
    rw [parseValueF, hskip]
    rw [show prettyAux k (.str s) = quoteString s from rfl, quoteString]
    simp only [List.cons_append, List.append_assoc, List.nil_append]
    have hpsb := parseStringBody_escList s.data rest
    simp [hpsb, string_mk_data]
  | h4 xs hmem =>
    intro hwf k fuel input rest hfuel hskip hsafe
    match xs with
    | [] =>
      obtain ⟨f, rfl⟩ : ∃ f, fuel = f + 1 :=
        ⟨fuel - 1, by
          rw [show fuelNeed (.arr []) = 2 from rfl] at hfuel; omega⟩
      obtain ⟨f1, rfl⟩ : ∃ f1, f = f1 + 1 :=
        ⟨f - 1, by rw [show fuelNeed (.arr []) = 2 from rfl] at hfuel; omega⟩
      rw [parseValueF, hskip]
      rw [show prettyAux k (.arr []) = ['[', ']'] from rfl]
      simp only [List.cons_append, List.nil_append]
      have harr : parseArrayF (f1 + 1) (']' :: rest) = some (.arr [], rest) := by
        rw [parseArrayF, skipWs_not_ws _ (by decide)]
        simp
      simp [harr]
    | x :: xs' =>
      rw [show fuelNeed (.arr (x :: xs')) = 1 + fuelNeedItems (x :: xs') from rfl] at hfuel
      obtain ⟨f, rfl⟩ : ∃ f, fuel = f + 1 := ⟨fuel - 1, by omega⟩
      have hf : fuelNeedItems (x :: xs') ≤ f := by omega
      rw [show fuelNeedItems (x :: xs') =
        1 + max (fuelNeed x) (fuelNeedItems xs') from rfl] at hf
      obtain ⟨f1, rfl⟩ : ∃ f1, f = f1 + 1 := ⟨f - 1, by omega⟩
      have hmx : max (fuelNeed x) (fuelNeedItems xs') ≤ f1 := by omega
      have hfx : fuelNeed x ≤ f1 := le_trans (le_max_left _ _) hmx
      have hfxs : fuelNeedItems xs' ≤ f1 := le_trans (le_max_right _ _) hmx
      rw [show wfJson (.arr (x :: xs')) = wfList (x :: xs') from rfl, wfList,
        Bool.and_eq_true] at hwf
      rw [parseValueF, hskip]
      rw [show prettyAux k (.arr (x :: xs')) =
        '[' :: '\n' :: (prettyItems (k + 1) (x :: xs') ++
          '\n' :: (indentChars k ++ [']'])) from rfl]
      simp only [List.cons_append, List.append_assoc, List.nil_append]
      have hdecomp := prettyItems_decomp xs' (k + 1) x
        ('\n' :: (indentChars k ++ (']' :: rest)))
      have harr : parseArrayF (f1 + 1)
          ('\n' :: (prettyItems (k + 1) (x :: xs') ++
            ('\n' :: (indentChars k ++ (']' :: rest))))) =
          some (.arr (x :: xs'), rest) := by
        rw [parseArrayF, skipWs_ws_cons _ (by decide), hdecomp, skipWs_indent]
        rw [skipWs_of_startsValue (startsValue_append _ (prettyAux_startsValue x (k + 1)))]
        cases hpa : prettyAux (k + 1) x with
        | nil => exact absurd (prettyAux_startsValue x (k + 1)) (by rw [hpa]; simp [startsValue])
        | cons c cs =>
          have hsv := prettyAux_startsValue x (k + 1)
          rw [hpa] at hsv
          simp only [List.cons_append]
          have hskipx : skipWs (c :: (cs ++
              itemsTail (k + 1) ('\n' :: (indentChars k ++ (']' :: rest))) xs')) =
              prettyAux (k + 1) x ++
                itemsTail (k + 1) ('\n' :: (indentChars k ++ (']' :: rest))) xs' := by
            rw [skipWs_not_ws _ hsv.1, hpa, List.cons_append]
          have hsafex : numSafe
              (itemsTail (k + 1) ('\n' :: (indentChars k ++ (']' :: rest))) xs') := by
            cases xs' with
            | nil => exact ⟨by decide, by decide, by decide, by decide⟩
            | cons z zs => exact ⟨by decide, by decide, by decide, by decide⟩
          have hpv := hmem x (by simp) hwf.1 (k + 1) f1 _ _ hfx hskipx hsafex
          have htail := parseArrayTailF_items xs'
            (fun y hy => hmem y (by simp [hy]) (wfList_mem hwf.2 y hy))
            [x] f1 (k + 1) k rest hfxs hsafe
          rw [if_neg hsv.2.1]
          simp only [hpv, htail]
          simp
      simp [harr]
  | h5 kvs hmem =>
    intro hwf k fuel input rest hfuel hskip hsafe
    match kvs with
    | [] =>
      obtain ⟨f, rfl⟩ : ∃ f, fuel = f + 1 :=
        ⟨fuel - 1, by rw [show fuelNeed (.obj []) = 2 from rfl] at hfuel; omega⟩
      obtain ⟨f1, rfl⟩ : ∃ f1, f = f1 + 1 :=
        ⟨f - 1, by rw [show fuelNeed (.obj []) = 2 from rfl] at hfuel; omega⟩
      rw [parseValueF, hskip]
      rw [show prettyAux k (.obj []) = ['\x7b', '\x7d'] from rfl]
      simp only [List.cons_append, List.nil_append]
      have hobj : parseObjectF (f1 + 1) ('\x7d' :: rest) = some (.obj [], rest) := by
        rw [parseObjectF, skipWs_not_ws _ (by decide)]
        simp
      simp [hobj]
    | (key, v) :: kvs' =>
      rw [show fuelNeed (.obj ((key, v) :: kvs')) =
        1 + fuelNeedEntries ((key, v) :: kvs') from rfl] at hfuel
      obtain ⟨f, rfl⟩ : ∃ f, fuel = f + 1 := ⟨fuel - 1, by omega⟩
      have hf : fuelNeedEntries ((key, v) :: kvs') ≤ f := by omega
      rw [show fuelNeedEntries ((key, v) :: kvs') =
        1 + max (fuelNeed v) (fuelNeedEntries kvs') from rfl] at hf
      obtain ⟨f1, rfl⟩ : ∃ f1, f = f1 + 1 := ⟨f - 1, by omega⟩
      have hmx : max (fuelNeed v) (fuelNeedEntries kvs') ≤ f1 := by omega
      have hfv : fuelNeed v ≤ f1 := le_trans (le_max_left _ _) hmx
      have hfes : fuelNeedEntries kvs' ≤ f1 := le_trans (le_max_right _ _) hmx
      have hwf2 := wfEntries_cons (show wfEntries ((key, v) :: kvs') = true from hwf)
      rw [parseValueF, hskip]
      rw [show prettyAux k (.obj ((key, v) :: kvs')) =
        '\x7b' :: '\n' :: (prettyEntries (k + 1) ((key, v) :: kvs') ++
          '\n' :: (indentChars k ++ ['\x7d'])) from rfl]
      simp only [List.cons_append, List.append_assoc, List.nil_append]
      have hdecomp := prettyEntries_decomp kvs' (k + 1) key v
        ('\n' :: (indentChars k ++ ('\x7d' :: rest)))
      have hobj : parseObjectF (f1 + 1)
          ('\n' :: (prettyEntries (k + 1) ((key, v) :: kvs') ++
            ('\n' :: (indentChars k ++ ('\x7d' :: rest))))) =
          some (.obj ((key, v) :: kvs'), rest) := by
        rw [parseObjectF, skipWs_ws_cons _ (by decide), hdecomp, skipWs_indent]
        rw [quoteString]
        simp only [List.cons_append, List.append_assoc, List.nil_append]
        rw [skipWs_not_ws _ (by decide)]
        have hpsb := parseStringBody_escList key.data (':' :: ' ' ::
          (prettyAux (k + 1) v ++
            entriesTail (k + 1) ('\n' :: (indentChars k ++ ('\x7d' :: rest))) kvs'))
        have hskipv : skipWs (' ' ::
            (prettyAux (k + 1) v ++
              entriesTail (k + 1) ('\n' :: (indentChars k ++ ('\x7d' :: rest))) kvs')) =
            prettyAux (k + 1) v ++
              entriesTail (k + 1) ('\n' :: (indentChars k ++ ('\x7d' :: rest))) kvs' := by
          rw [skipWs_ws_cons _ (by decide)]
          exact skipWs_of_startsValue (startsValue_append _ (prettyAux_startsValue v (k + 1)))
        have hsafev : numSafe
            (entriesTail (k + 1) ('\n' :: (indentChars k ++ ('\x7d' :: rest))) kvs') := by
          cases kvs' with
          | nil => exact ⟨by decide, by decide, by decide, by decide⟩
          | cons z zs => exact ⟨by decide, by decide, by decide, by decide⟩
        have hpv := hmem (key, v) (by simp) hwf2.2.1 (k + 1) f1 _ _ hfv hskipv hsafev
        have hins : insertKV [] (String.mk key.data) v = [(key, v)] := by
          rw [string_mk_data]; rfl
        have hfresh2 : ∀ kv ∈ kvs', hasKey [(key, v)] kv.1 = false := by
          intro kv hkv
          have hne := hasKey_false_ne kvs' key hwf2.1 kv hkv
          simp [hasKey, lookupKey, Ne.symm hne]
        have htail := parseObjectTailF_entries kvs'
          (fun kv hkv => hmem kv (by simp [hkv]) (wfEntries_mem kvs' hwf2.2.2 kv hkv))
          hwf2.2.2 [(key, v)] f1 (k + 1) k rest hfresh2 hfes hsafe
        have hskipcolon : skipWs (':' :: ' ' ::
            (prettyAux (k + 1) v ++
              entriesTail (k + 1) ('\n' :: (indentChars k ++ ('\x7d' :: rest))) kvs')) =
            ':' :: ' ' ::
              (prettyAux (k + 1) v ++
                entriesTail (k + 1) ('\n' :: (indentChars k ++ ('\x7d' :: rest))) kvs') :=
          skipWs_not_ws _ (by decide)
        simp only [hpsb, hskipcolon, hpv, hins, htail]
        simp
      simp [hobj]

/-- **C5**: pretty-print/parse round-trip — for every well-formed value
(objects hold pairwise-distinct keys, as in-memory maps do), parsing the
pretty-printed serialization yields a structurally equal value; this
covers null, bools, integers, strings with escapes, empty and non-empty
arrays and objects, arbitrarily nested. -/
theorem pretty_parse_roundtrip (v : JsonValue) (h : wfJson v = true) :
    parseJson (to_string_pretty v) = some v := by
  have hfuel : fuelNeed v ≤ (prettyAux 0 v).length + 1 :=
    le_trans (prettyAux_length_ge v 0) (by omega)
  have hskip : skipWs (prettyAux 0 v) = prettyAux 0 v ++ [] := by
    rw [List.append_nil]
    exact skipWs_of_startsValue (prettyAux_startsValue v 0)
  have hmain := parse_printed v h 0 ((prettyAux 0 v).length + 1) (prettyAux 0 v) []
    hfuel hskip trivial
  rw [parseJson]
  rw [show (to_string_pretty v).length = (prettyAux 0 v).length from rfl]
  rw [show (to_string_pretty v).data = prettyAux 0 v from rfl]
  rw [hmain]
  simp [skipWs]

theorem pretty_parse_roundtrip_witness :
    wfJson sampleDoc = true ∧ parseJson (to_string_pretty sampleDoc) = some sampleDoc :=
  ⟨by decide, pretty_parse_roundtrip sampleDoc (by decide)⟩
